import Mathlib

/-!
# DoomRunner file-system utilities

A shallow embedding of `Sources/Utils/FileSystemUtils.cpp`:

* `sanitizePath`      : the white-list filter built on a regular expression;
* `tryToWriteFile`, `isDirectoryWritable` : the write-then-delete probe;
* `updateFileSafely`  : write to `<path>.new`, delete the original, rename;
* `traverseDirectory` : the directory walk with a visitor callback.

`QString` values are Lean strings, `QByteArray` values are byte lists; for the
directory walk a path is the list of its components.  The Qt classes the functions
call (`QFile`, `QDir`, `QDirIterator`, `QFileInfo`) are library code; they are
represented by small explicit file-system models that the embedded functions are
run against:

* for `QFile`, a flat map from paths to nodes with injectable failures; a `QFile` is
  buffered, so what is written reaches the file at once only when it does not fit the
  write buffer, and otherwise when `close` flushes the buffer;
* for the walk, a finite directory tree resolved as a POSIX system does, listed by a
  `QDirIterator` with the default filter, which leaves hidden entries out.
-/

namespace DoomRunner

abbrev QString := String

abbrev QByteArray := List UInt8

/-! ## sanitizePath -/

/-- One item between the brackets of a regular-expression character class. -/
inductive ClassItem where
  | range (lo hi : Char)
  | single (c : Char)

/-- Whether a character is denoted by a class item; ranges compare code points. -/
def ClassItem.contains (c : Char) : ClassItem → Bool
  | .range lo hi => decide (lo ≤ c) && decide (c ≤ hi)
  | .single d => c == d

/-- The items between the brackets of the regular expression of `sanitizePath`, in the
order they are written there, with the C++ and the regex escapes resolved: three ranges
and twenty single characters. Code point 39 is the apostrophe. -/
def invalidChars.items : List ClassItem :=
  [.range 'a' 'z', .range 'A' 'Z', .range '0' '9', .single '_', .single ' ', .single '!',
   .single '#', .single '$', .single '&', .single (Char.ofNat 39), .single '(', .single ')',
   .single '+', .single ',', .single '-', .single '.', .single ';', .single '=', .single '@',
   .single '[', .single ']', .single '^', .single '~']

/-- The regular expression `invalidChars`: a negated class, so it matches exactly one
character, and it matches it when no item of the class contains it. -/
def invalidChars (c : Char) : Bool :=
  !(invalidChars.items.any (ClassItem.contains c))

/-- The call `QString::remove(const QRegularExpression &)` for a regular expression that matches
single characters: the text is scanned left to right and every match is dropped. -/
def QString.remove (re : Char → Bool) : List Char → List Char
  | [] => []
  | c :: rest => if re c then QString.remove re rest else c :: QString.remove re rest

/-- The function `sanitizePath`: copy the path and remove every match of `invalidChars`. -/
def sanitizePath (path : QString) : QString :=
  let sanitizedPath := path
  String.mk (QString.remove invalidChars sanitizedPath.data)

/-- The safe set as the specification words it: ASCII letters, digits, space and the
punctuation `_ ! # $ & ' ( ) + , - . ; = @ [ ] ^ ~`. -/
def specSafeChar (c : Char) : Bool :=
  c.isAlpha || c.isDigit || c == ' ' ||
    [ '_', '!', '#', '$', '&', Char.ofNat 39, '(', ')', '+', ',', '-', '.', ';', '=', '@',
      '[', ']', '^', '~'].contains c

/-! ## A flat file-system model for `QFile` -/

/-- What a path names: a regular file with its bytes, or a directory. -/
inductive FsNode where
  | file (content : QByteArray)
  | directory
  deriving DecidableEq

/-- The `QFile` calls that were made, in order. -/
inductive FsOp where
  | open (path : QString)
  | write (path : QString)
  | close (path : QString)
  | remove (path : QString)
  | rename (src dst : QString)
  deriving DecidableEq

/-- The state of the file system: what each path names, and the journal of the `QFile`
calls completed so far. -/
@[ext]
structure FileSystem where
  node : QString → Option FsNode
  journal : List FsOp

/-- The failures the operating system may answer with, and their error texts:
a refused open or removal or rename (permissions, locks, a missing or read-only parent
directory), and a device that takes only the first `n` bytes of what is written to a
path and then fails (full disk, I/O error). -/
structure Faults where
  openError : QString → Option String
  writeError : QString → Option (Nat × String)
  removeError : QString → Option String
  renameError : QString → QString → Option String

/-- An operating system that refuses nothing. -/
def Faults.none : Faults :=
  { openError := fun _ => Option.none
    writeError := fun _ => Option.none
    removeError := fun _ => Option.none
    renameError := fun _ _ => Option.none }

/-- The outcome of a `QFile` call: the error text when it failed, and the new state. -/
structure OpResult where
  error : Option String
  fs : FileSystem

def FileSystem.set (fs : FileSystem) (path : QString) (v : Option FsNode) : FileSystem :=
  { fs with node := fun q => if q = path then v else fs.node q }

def FileSystem.record (fs : FileSystem) (op : FsOp) : FileSystem :=
  { fs with journal := fs.journal ++ [op] }

/-- Bytes reach the end of the regular file at the path; nothing else is written to. -/
def FileSystem.append (fs : FileSystem) (path : QString) (bytes : QByteArray) : FileSystem :=
  match fs.node path with
  | some (.file content) => fs.set path (some (.file (content ++ bytes)))
  | _ => fs

/-- The call `QFile::open( QIODevice::WriteOnly )`: refused by the system or because the
path is a directory; otherwise the file is created, or truncated when it exists. -/
def QFile.open (env : Faults) (fs : FileSystem) (path : QString) : OpResult :=
  let fs := fs.record (.open path)
  match env.openError path with
  | some e => ⟨some e, fs⟩
  | Option.none =>
    match fs.node path with
    | some .directory => ⟨some "Is a directory", fs⟩
    | _ => ⟨Option.none, fs.set path (some (.file []))⟩

/-- The size of the write buffer of a `QFile` opened without `QIODevice::Unbuffered`
(Qt's `QFILE_WRITEBUFFER_SIZE`). -/
def QFile.writeBufferSize : Nat := 16384

/-- The number of bytes of `data` that the device takes when they are written to the
path. -/
def QFSFileEngine.taken (env : Faults) (path : QString) (data : QByteArray) : Nat :=
  match env.writeError path with
  | some (n, _) => min n data.length
  | Option.none => data.length

/-- The write of the file engine under a `QFile`: the bytes the device takes reach the
file. The engine sets an error only when there was something to write and nothing was
taken; a write that breaks off later shows in the returned byte count alone. -/
def QFSFileEngine.write (env : Faults) (fs : FileSystem) (path : QString)
    (data : QByteArray) : OpResult :=
  let taken := QFSFileEngine.taken env path data
  ⟨if data.length ≠ 0 ∧ taken = 0 then (env.writeError path).map Prod.snd else Option.none,
    fs.append path (data.take taken)⟩

/-- The outcome of `QFile::write`: the error that `QFile::error()` shows afterwards, the
new state, and the bytes left in the write buffer of the `QFile` object. The byte count
that `write` returns is not part of it: the callers here drop it. -/
structure WriteResult where
  error : Option String
  fs : FileSystem
  buffer : QByteArray

/-- The call `QFile::write( data )` on a freshly opened, buffered `QFile`, followed by
`QFile::error()`: data that fits the write buffer is only kept there, and no error can
show; larger data goes to the file engine at once. -/
def QFile.write (env : Faults) (fs : FileSystem) (path : QString) (data : QByteArray) :
    WriteResult :=
  if data.length ≤ QFile.writeBufferSize then
    ⟨Option.none, fs.record (.write path), data⟩
  else
    let direct := QFSFileEngine.write env fs path data
    ⟨direct.error, direct.fs.record (.write path), []⟩

/-- The call `QFile::close()`: the write buffer is flushed to the file engine. A flush
that fails sets an error that nothing here reads before `QFile::rename` unsets it. -/
def QFile.close (env : Faults) (fs : FileSystem) (path : QString) (buffer : QByteArray) :
    FileSystem :=
  let flushed := if buffer.isEmpty then fs else (QFSFileEngine.write env fs path buffer).fs
  flushed.record (.close path)

/-- The call `QFile::exists()`: something exists at the path. -/
def QFile.exists (fs : FileSystem) (path : QString) : Bool :=
  (fs.node path).isSome

/-- The call `QFile::remove()`: refused by the system, or because the path names no
regular file. -/
def QFile.remove (env : Faults) (fs : FileSystem) (path : QString) : OpResult :=
  let fs := fs.record (.remove path)
  match env.removeError path with
  | some e => ⟨some e, fs⟩
  | Option.none =>
    match fs.node path with
    | some (.file _) => ⟨Option.none, fs.set path Option.none⟩
    | some .directory => ⟨some "Is a directory", fs⟩
    | Option.none => ⟨some "No such file or directory", fs⟩

/-- The call `QFile::rename( newName )`: fails when the source is missing or the
destination exists (Qt never overwrites), or when the system refuses; otherwise the node
moves. An error left on the `QFile` object by an earlier call is unset first. -/
def QFile.rename (env : Faults) (fs : FileSystem) (src dst : QString) : OpResult :=
  let fs := fs.record (.rename src dst)
  match fs.node src with
  | Option.none => ⟨some "Source file does not exist.", fs⟩
  | some n =>
    if (fs.node dst).isSome then ⟨some "Destination file exists", fs⟩
    else
      match env.renameError src dst with
      | some e => ⟨some e, fs⟩
      | Option.none => ⟨Option.none, (fs.set src Option.none).set dst (some n)⟩

/-! ## tryToWriteFile, isDirectoryWritable -/

/-- Modelled from the spec: `getPathFromFileName` is declared in `FileSystemUtils.hpp`,
which is not among the sources. The specification says the prober constructs "a fixed
probe filename inside the directory": the file name is appended to the directory path
after a separator. -/
def getPathFromFileName (dirPath fileName : QString) : QString :=
  dirPath ++ "/" ++ fileName

/-- The function `tryToWriteFile`: open for writing; on failure answer false; otherwise
close (nothing was written, the buffer is empty), remove (the result of `remove` is not
looked at) and answer true. -/
def tryToWriteFile (env : Faults) (fs : FileSystem) (filePath : QString) : Bool × FileSystem :=
  let opened := QFile.open env fs filePath
  match opened.error with
  | some _ => (false, opened.fs)
  | Option.none =>
    let closed := QFile.close env opened.fs filePath []
    let removed := QFile.remove env closed filePath
    (true, removed.fs)

/-- The function `isDirectoryWritable`: the probe on `write_test.txt` in the directory. -/
def isDirectoryWritable (env : Faults) (fs : FileSystem) (dirPath : QString) :
    Bool × FileSystem :=
  tryToWriteFile env fs (getPathFromFileName dirPath "write_test.txt")

/-- A directory exists and is writable: the path names a directory and the system lets
files be created in it and removed from it. -/
def DirectoryWritable (env : Faults) (fs : FileSystem) (dirPath : QString) : Prop :=
  fs.node dirPath = some .directory ∧
    ∀ name, env.openError (getPathFromFileName dirPath name) = Option.none ∧
      env.removeError (getPathFromFileName dirPath name) = Option.none

/-- The names of the entries of a directory, as a predicate on names. -/
def hasEntry (fs : FileSystem) (dirPath name : QString) : Bool :=
  (fs.node (getPathFromFileName dirPath name)).isSome

/-! ## updateFileSafely -/

/-- The function `updateFileSafely`: the returned text is empty on success; the second
component is the file system afterwards. The value of `newFile.write` is dropped, the
error of `newFile` is read once, before `close`. `QThread::msleep( 20 )` does not touch
the file system. -/
def updateFileSafely (env : Faults) (fs : FileSystem) (origFilePath : QString)
    (newContent : QByteArray) : QString × FileSystem :=
  let newFilePath := origFilePath ++ ".new"
  let opened := QFile.open env fs newFilePath
  match opened.error with
  | some e => ("Could not open file " ++ newFilePath ++ " for writing: " ++ e, opened.fs)
  | Option.none =>
    let written := QFile.write env opened.fs newFilePath newContent
    match written.error with
    | some e => ("Could not write to file " ++ newFilePath ++ ": " ++ e, written.fs)
    | Option.none =>
      let closed := QFile.close env written.fs newFilePath written.buffer
      let removed : OpResult :=
        if QFile.exists closed origFilePath then QFile.remove env closed origFilePath
        else ⟨Option.none, closed⟩
      match removed.error with
      | some e =>
        ("Could not delete the previous file " ++ origFilePath ++ ": " ++ e, removed.fs)
      | Option.none =>
        let renamed := QFile.rename env removed.fs newFilePath origFilePath
        match renamed.error with
        | some e =>
          ("Could not rename the new file " ++ newFilePath ++ " back to " ++ origFilePath
            ++ ": " ++ e, renamed.fs)
        | Option.none => ("", renamed.fs)

/-! ## The intermediate states of `updateFileSafely` -/

/-- The outcome of the `open` call of `updateFileSafely`. -/
def afterOpen (env : Faults) (fs : FileSystem) (P : QString) : OpResult :=
  QFile.open env fs (P ++ ".new")

/-- The outcome of the `write` call, when it is reached. -/
def afterWrite (env : Faults) (fs : FileSystem) (P : QString) (C : QByteArray) :
    WriteResult :=
  QFile.write env (afterOpen env fs P).fs (P ++ ".new") C

/-- The state after `close`, when it is reached. -/
def afterClose (env : Faults) (fs : FileSystem) (P : QString) (C : QByteArray) : FileSystem :=
  QFile.close env (afterWrite env fs P C).fs (P ++ ".new") (afterWrite env fs P C).buffer

/-- The outcome of deleting the previous file, which is skipped when there is none. -/
def afterRemove (env : Faults) (fs : FileSystem) (P : QString) (C : QByteArray) : OpResult :=
  if QFile.exists (afterClose env fs P C) P then QFile.remove env (afterClose env fs P C) P
  else ⟨Option.none, afterClose env fs P C⟩

/-- The outcome of the `rename` call, when it is reached. -/
def afterRename (env : Faults) (fs : FileSystem) (P : QString) (C : QByteArray) : OpResult :=
  QFile.rename env (afterRemove env fs P C).fs (P ++ ".new") P

/-! ## updateFileSafely as a sequence of interruptible steps -/

/-- The program points of `updateFileSafely` between which a crash can fall. Bytes reach
the file one after the other, inside `newFile.write` when the data goes to the file engine
at once, inside `newFile.close` when the write buffer is flushed; `done` counts them. -/
inductive Stage where
  | atOpen
  | atWrite (done : Nat)
  | atClose (done : Nat)
  | atRemove
  | atRename
  | returned (result : QString)
  deriving DecidableEq

/-- A point of an execution: where the program is, and the file system there. -/
structure Run where
  stage : Stage
  fs : FileSystem

/-- The bytes that `newFile.write` hands to the file engine at once: all of the data
when it does not fit the write buffer, nothing otherwise. -/
def directData (newContent : QByteArray) : QByteArray :=
  if newContent.length ≤ QFile.writeBufferSize then [] else newContent

/-- The bytes that `newFile.write` leaves in the write buffer for `newFile.close`. -/
def bufferedData (newContent : QByteArray) : QByteArray :=
  if newContent.length ≤ QFile.writeBufferSize then newContent else []

/-- One step of `updateFileSafely origFilePath newContent`. The steps are those of the
function body, with every write of the file engine split into single bytes; once returned
nothing changes. -/
def step (env : Faults) (origFilePath : QString) (newContent : QByteArray) (r : Run) : Run :=
  let newFilePath := origFilePath ++ ".new"
  match r.stage with
  | .atOpen =>
    let opened := QFile.open env r.fs newFilePath
    match opened.error with
    | some e =>
      ⟨.returned ("Could not open file " ++ newFilePath ++ " for writing: " ++ e), opened.fs⟩
    | Option.none => ⟨.atWrite 0, opened.fs⟩
  | .atWrite k =>
    let data := directData newContent
    if k < QFSFileEngine.taken env newFilePath data then
      ⟨.atWrite (k + 1), r.fs.append newFilePath ((data.drop k).take 1)⟩
    else
      match (QFSFileEngine.write env r.fs newFilePath data).error with
      | some e =>
        ⟨.returned ("Could not write to file " ++ newFilePath ++ ": " ++ e),
          r.fs.record (.write newFilePath)⟩
      | Option.none => ⟨.atClose 0, r.fs.record (.write newFilePath)⟩
  | .atClose k =>
    let data := bufferedData newContent
    if k < QFSFileEngine.taken env newFilePath data then
      ⟨.atClose (k + 1), r.fs.append newFilePath ((data.drop k).take 1)⟩
    else ⟨.atRemove, r.fs.record (.close newFilePath)⟩
  | .atRemove =>
    if QFile.exists r.fs origFilePath then
      let removed := QFile.remove env r.fs origFilePath
      match removed.error with
      | some e =>
        ⟨.returned ("Could not delete the previous file " ++ origFilePath ++ ": " ++ e),
          removed.fs⟩
      | Option.none => ⟨.atRename, removed.fs⟩
    else ⟨.atRename, r.fs⟩
  | .atRename =>
    let renamed := QFile.rename env r.fs newFilePath origFilePath
    match renamed.error with
    | some e =>
      ⟨.returned ("Could not rename the new file " ++ newFilePath ++ " back to "
        ++ origFilePath ++ ": " ++ e), renamed.fs⟩
    | Option.none => ⟨.returned "", renamed.fs⟩
  | .returned _ => r

/-- The point reached after `n` steps; a crash can stop the execution at any of them. -/
def run (env : Faults) (origFilePath : QString) (newContent : QByteArray) : Nat → Run → Run
  | 0, r => r
  | n + 1, r => run env origFilePath newContent n (step env origFilePath newContent r)

/-- The bytes of the new content that have reached the `.new` file at a program point. -/
def Stage.written (C : QByteArray) : Stage → Option QByteArray
  | .atOpen => Option.none
  | .atWrite k => some ((directData C).take k)
  | .atClose k => some (directData C ++ (bufferedData C).take k)
  | .atRemove => some C
  | .atRename => some C
  | .returned _ => Option.none

/-- What holds of the file system at each program point when the device takes every byte,
relative to the file system `fs0` the call started in: only the target and the `.new`
path can differ from `fs0`; the target is untouched until the deletion and absent from
then until the rename; the `.new` path holds the bytes written so far. -/
def StageInv (fs0 : FileSystem) (P : QString) (C : QByteArray) (r : Run) : Prop :=
  (∀ q, q ≠ P → q ≠ P ++ ".new" → r.fs.node q = fs0.node q) ∧
    (∀ bytes, r.stage.written C = some bytes → r.fs.node (P ++ ".new") = some (.file bytes)) ∧
    match r.stage with
    | .atOpen => r.fs.node P = fs0.node P
    | .atWrite k => r.fs.node P = fs0.node P ∧ k ≤ (directData C).length
    | .atClose k => r.fs.node P = fs0.node P ∧ k ≤ (bufferedData C).length
    | .atRemove => r.fs.node P = fs0.node P
    | .atRename => r.fs.node P = Option.none
    | .returned _ =>
      r.fs.node P = fs0.node P ∨ r.fs.node P = Option.none ∨ r.fs.node P = some (.file C)

/-! ## A directory tree for `QDir`, `QDirIterator` and `QFileInfo`

The model follows a POSIX system: a path is resolved component by component, and an entry
is hidden when its name starts with a dot. -/

/-- A path, as the list of its components: `maps/e1/m1.wad` is `["maps", "e1", "m1.wad"]`
and the empty `QString` is `[]`. -/
abbrev Path := List String

/-- A finite directory tree without links: a regular file, or a directory with its named
entries. Paths are resolved from the top of the tree, which stands for the working
directory. -/
inductive FsTree where
  | file : FsTree
  | dir (entries : List (String × FsTree)) : FsTree

def FsTree.isDirectory : FsTree → Bool
  | .file => false
  | .dir _ => true

/-- Follow a path of plain names down the tree. -/
def FsTree.walk : FsTree → Path → Option FsTree
  | t, [] => some t
  | .file, _ :: _ => Option.none
  | .dir entries, c :: rest =>
    match entries.lookup c with
    | some t => t.walk rest
    | Option.none => Option.none

/-- A place in the tree during the resolution of a path: the node reached, and the
directories it was reached through, nearest first. -/
structure Location where
  here : FsTree
  above : List FsTree

/-- The system resolves one more component. Whatever follows a regular file or a missing
entry fails, also `.` and `..`; in a directory `.` stays, `..` goes to the directory above
(and stays at the top), a name goes to the entry of that name. -/
def Location.step (loc : Location) (c : String) : Option Location :=
  match loc.here with
  | .file => Option.none
  | .dir entries =>
    if c = "." then some loc
    else if c = ".." then
      match loc.above with
      | [] => some loc
      | parent :: rest => some ⟨parent, rest⟩
    else
      match entries.lookup c with
      | some t => some ⟨t, loc.here :: loc.above⟩
      | Option.none => Option.none

/-- The system resolves a path from a place, component by component. -/
def Location.walk : Location → Path → Option Location
  | loc, [] => some loc
  | loc, c :: rest =>
    match loc.step c with
    | some next => next.walk rest
    | Option.none => Option.none

/-- What the file system holds at a path, if anything. -/
def resolve (root : FsTree) (p : Path) : Option FsTree :=
  (Location.walk ⟨root, []⟩ p).map Location.here

/-- The call `QFileInfo( path ).isDir()`: false when nothing exists at the path, and for
the empty path. -/
def QFileInfo.isDir (root : FsTree) (path : Path) : Bool :=
  if path.isEmpty then false
  else
    match resolve root path with
    | some t => t.isDirectory
    | Option.none => false

/-- The call `QDir( path ).exists()`; a `QDir` of the empty path is the working
directory. -/
def QDir.exists (root : FsTree) (path : Path) : Bool :=
  match resolve root path with
  | some t => t.isDirectory
  | Option.none => false

/-- An entry that `QFileInfo::isHidden()` reports as hidden: its name starts with a dot. -/
def isHidden (name : String) : Bool :=
  match name.data with
  | c :: _ => c == '.'
  | [] => false

/-- The file names a `QDirIterator` over a `QDir` with the default filter yields: the
pseudo-entries `.` and `..` and the entries of the directory that are not hidden. -/
def QDirIterator.fileNames (root : FsTree) (dir : Path) : List String :=
  match resolve root dir with
  | some (.dir entries) => "." :: ".." :: (entries.map Prod.fst).filter (fun n => !isHidden n)
  | _ => []

/-- A file name: not empty, not `.` or `..`, and without a separator. -/
def validName (name : String) : Bool :=
  name != "" && name != "." && name != ".." && !name.data.contains '/'

mutual
/-- A well-formed directory tree: within a directory no two entries have the same name and
every name is a file name. -/
def FsTree.wf : FsTree → Bool
  | .file => true
  | .dir entries => FsTree.wfList entries
/-- Well-formedness of the entries of one directory. -/
def FsTree.wfList : List (String × FsTree) → Bool
  | [] => true
  | e :: rest =>
    validName e.1 && !(rest.map Prod.fst).contains e.1 && e.2.wf && FsTree.wfList rest
end

mutual
/-- The number of directory levels of a tree. -/
def FsTree.height : FsTree → Nat
  | .file => 0
  | .dir entries => FsTree.heightList entries + 1
/-- The largest height among the entries of one directory. -/
def FsTree.heightList : List (String × FsTree) → Nat
  | [] => 0
  | e :: rest => max e.2.height (FsTree.heightList rest)
end

/-! ## traverseDirectory -/

inductive EntryType where
  | DIR
  | FILE
  deriving DecidableEq

/-- Modelled from the spec: `EntryTypes` is declared in `FileSystemUtils.hpp`, which is not
among the sources. The specification calls it "a set-valued flag (subset of {FILE,
DIRECTORY})"; a set is given by the list of its members. -/
abbrev EntryTypes := List EntryType

/-- The call `EntryTypes::isSet`. -/
def EntryTypes.isSet (types : EntryTypes) (t : EntryType) : Bool :=
  types.contains t

/-- Modelled from the spec: `PathContext` is declared outside the sources. The
specification describes it as "a caller-supplied function mapping a raw discovered path to
a transformed path". -/
structure PathContext where
  convertPath : Path → Path

/-- The identity path transform. -/
def PathContext.identity : PathContext :=
  ⟨fun p => p⟩

/-- What a call of `traverseDirectory` did: the entries handed to `visitEntry`, in the order
of the calls (a `QFileInfo` is given by its path), and whether the call returned within
the allowed depth of recursion. -/
structure Outcome where
  visits : List Path
  finished : Bool
  deriving DecidableEq

/-- The body of the `while` loop for the entry named `name`; `descend` is the recursive
call. -/
def traverseDirectory.body (root : FsTree) (descend : Path → Outcome) (dir : Path)
    (recursively : Bool) (typesToVisit : EntryTypes) (pathContext : PathContext)
    (name : String) : Outcome :=
  let entryPath := pathContext.convertPath (dir ++ [name])
  if QFileInfo.isDir root entryPath then
    let dirName := name
    if dirName ≠ "." ∧ dirName ≠ ".." then
      let visited : List Path := if typesToVisit.isSet .DIR then [entryPath] else []
      if recursively then
        let inner := descend entryPath
        ⟨visited ++ inner.visits, inner.finished⟩
      else ⟨visited, true⟩
    else ⟨[], true⟩
  else
    if typesToVisit.isSet .FILE then ⟨[entryPath], true⟩ else ⟨[], true⟩

/-- The `while (dirIt.hasNext())` loop over the file names still to come. A descent that
does not return keeps the loop from going on. -/
def traverseDirectory.loop (body : String → Outcome) : List String → Outcome
  | [] => ⟨[], true⟩
  | name :: rest =>
    let first := body name
    if first.finished then
      let others := traverseDirectory.loop body rest
      ⟨first.visits ++ others.visits, others.finished⟩
    else first

/-- The function `traverseDirectory`. The recursion follows the converted paths and need
not end, so the depth of nested descents is bounded by `fuel`; a call that would need more
is reported as not finished, with the visits made until then. -/
def traverseDirectory (root : FsTree) (fuel : Nat) (dir : Path) (recursively : Bool)
    (typesToVisit : EntryTypes) (pathContext : PathContext) : Outcome :=
  if dir.isEmpty then ⟨[], true⟩
  else if !QDir.exists root dir then ⟨[], true⟩
  else
    match fuel with
    | 0 => ⟨[], false⟩
    | fuel + 1 =>
      traverseDirectory.loop
        (traverseDirectory.body root
          (fun entryPath =>
            traverseDirectory root fuel entryPath recursively typesToVisit pathContext)
          dir recursively typesToVisit pathContext)
        (QDirIterator.fileNames root dir)

mutual
/-- The paths, relative to a tree, of everything strictly beneath its top that is not
hidden and lies in no hidden directory. -/
def FsTree.descendants : FsTree → List Path
  | .file => []
  | .dir entries => FsTree.descendantsList entries
/-- The entries of one directory that are not hidden, each followed by what is beneath
it. -/
def FsTree.descendantsList : List (String × FsTree) → List Path
  | [] => []
  | e :: rest =>
    (if isHidden e.1 then []
      else [e.1] :: e.2.descendants.map (fun rel => e.1 :: rel)) ++
      FsTree.descendantsList rest
end

/-- During a resolution the nodes above the place reached are directories, and in a
well-formed tree every node met is well-formed. -/
def Location.Sound (loc : Location) : Prop :=
  loc.here.wf = true ∧ ∀ t ∈ loc.above, t.wf = true ∧ t.isDirectory = true

/-! ## Theorems: sanitizePath -/

theorem QString.remove_eq_filter (re : Char → Bool) (l : List Char) :
    QString.remove re l = l.filter (fun c => !re c) := by
  induction l with
  | nil => rfl
  | cons c rest ih =>
    by_cases h : re c <;> simp [QString.remove, List.filter, h, ih]

theorem invalidChars_eq_not_specSafe (c : Char) : invalidChars c = !specSafeChar c := by
  have hle : ∀ a b : Char, (a ≤ b) = (a.val ≤ b.val) := fun _ _ => rfl
  have ha : ('a' : Char).val = 97 := rfl
  have hz : ('z' : Char).val = 122 := rfl
  have hA : ('A' : Char).val = 65 := rfl
  have hZ : ('Z' : Char).val = 90 := rfl
  have h0 : ('0' : Char).val = 48 := rfl
  have h9 : ('9' : Char).val = 57 := rfl
  rw [Bool.eq_iff_iff]
  simp only [invalidChars, invalidChars.items, ClassItem.contains, specSafeChar, Char.isAlpha,
    Char.isUpper, Char.isLower, Char.isDigit, hle, ha, hz, hA, hZ, h0, h9, List.any_cons,
    List.any_nil, List.contains_cons, List.contains_nil, Bool.or_false, Bool.not_eq_true',
    Bool.or_eq_false_iff, Bool.and_eq_false_iff, Bool.not_or, Bool.and_eq_true,
    Bool.not_eq_true, Bool.or_eq_true, Bool.not_and, beq_iff_eq, decide_eq_true_eq,
    decide_eq_false_iff_not, beq_eq_false_iff_ne, ne_eq, Bool.not_eq_eq_eq_not, Bool.not_true,
    Bool.not_false, Bool.not_not, ge_iff_le]
  tauto

/-- C3: sanitizing an already sanitized path changes nothing. -/
theorem sanitizePath_idempotent (s : QString) :
    sanitizePath (sanitizePath s) = sanitizePath s := by
  simp [sanitizePath, QString.remove_eq_filter, List.filter_filter]

/-- C4: `sanitizePath` keeps exactly the characters of the safe set of the specification,
in their order, and puts nothing in the place of a removed one; on `héllo!@#` it
gives `hllo!@#`. -/
theorem sanitizePath_eq_filter_specSafe :
    (∀ s : QString, sanitizePath s = String.mk (s.data.filter specSafeChar)) ∧
      sanitizePath "héllo!@#" = "hllo!@#" := by
  refine ⟨fun s => ?_, by decide⟩
  simp [sanitizePath, QString.remove_eq_filter, invalidChars_eq_not_specSafe]

/-! ## Lemmas on the `QFile` model -/

theorem append_new_ne (p : QString) : p ++ ".new" ≠ p := by
  intro h
  have := congrArg String.length h
  simp [String.length_append] at this
  exact absurd this (by decide)

theorem ne_append_new (p : QString) : p ≠ p ++ ".new" :=
  fun h => append_new_ne p h.symm

@[simp]
theorem FileSystem.set_node (fs : FileSystem) (p : QString) (v : Option FsNode)
    (q : QString) : (fs.set p v).node q = if q = p then v else fs.node q := rfl

@[simp]
theorem FileSystem.record_node (fs : FileSystem) (op : FsOp) :
    (fs.record op).node = fs.node := rfl

@[simp]
theorem FileSystem.set_journal (fs : FileSystem) (p : QString) (v : Option FsNode) :
    (fs.set p v).journal = fs.journal := rfl

@[simp]
theorem FileSystem.record_journal (fs : FileSystem) (op : FsOp) :
    (fs.record op).journal = fs.journal ++ [op] := rfl

@[simp]
theorem FileSystem.append_journal (fs : FileSystem) (p : QString) (b : QByteArray) :
    (fs.append p b).journal = fs.journal := by
  unfold FileSystem.append
  split <;> rfl

theorem FileSystem.append_node_ne (fs : FileSystem) (p : QString) (b : QByteArray)
    (q : QString) (hq : q ≠ p) : (fs.append p b).node q = fs.node q := by
  unfold FileSystem.append
  split
  · simp [hq]
  · rfl

theorem FileSystem.append_node_file (fs : FileSystem) (p : QString) (b c : QByteArray)
    (h : fs.node p = some (.file c)) : (fs.append p b).node p = some (.file (c ++ b)) := by
  unfold FileSystem.append
  rw [h]
  simp

theorem FileSystem.set_set (fs : FileSystem) (p : QString) (a b : Option FsNode) :
    (fs.set p a).set p b = fs.set p b := by
  ext q
  · simp only [FileSystem.set_node]; split <;> rfl
  · rfl

theorem FileSystem.set_same (fs : FileSystem) (p : QString) (a : Option FsNode)
    (h : fs.node p = a) : fs.set p a = fs := by
  ext q
  · simp only [FileSystem.set_node]
    split
    · rename_i hq; rw [hq, h]
    · rfl
  · rfl

theorem FileSystem.append_nil (fs : FileSystem) (p : QString) : fs.append p [] = fs := by
  unfold FileSystem.append
  split
  · rename_i c h
    rw [List.append_nil]
    exact FileSystem.set_same fs p _ h
  · rfl

theorem FileSystem.append_append (fs : FileSystem) (p : QString) (a b : QByteArray) :
    (fs.append p a).append p b = fs.append p (a ++ b) := by
  cases h : fs.node p with
  | none => simp [FileSystem.append, h]
  | some n =>
    cases n with
    | directory => simp [FileSystem.append, h]
    | file c =>
      have h1 : fs.append p a = fs.set p (some (.file (c ++ a))) := by
        simp [FileSystem.append, h]
      have h2 : fs.append p (a ++ b) = fs.set p (some (.file (c ++ (a ++ b)))) := by
        simp [FileSystem.append, h]
      rw [h1, h2]
      simp [FileSystem.append, FileSystem.set_set, List.append_assoc]

theorem FileSystem.append_record (fs : FileSystem) (p : QString) (b : QByteArray) (op : FsOp) :
    (fs.record op).append p b = (fs.append p b).record op := by
  unfold FileSystem.append
  simp only [FileSystem.record_node]
  split <;> rfl

theorem QFile.open_cases (env : Faults) (fs : FileSystem) (p : QString) :
    ((QFile.open env fs p).error = Option.none ∧
        env.openError p = Option.none ∧ fs.node p ≠ some .directory ∧
        (QFile.open env fs p).fs = (fs.record (.open p)).set p (some (.file []))) ∨
      ((QFile.open env fs p).error ≠ Option.none ∧
        (QFile.open env fs p).fs = fs.record (.open p)) := by
  unfold QFile.open
  cases h : env.openError p with
  | some e => simp
  | none =>
    cases hn : fs.node p with
    | none => simp [hn]
    | some n => cases n <;> simp [hn]

theorem QFile.remove_cases (env : Faults) (fs : FileSystem) (p : QString) :
    ((QFile.remove env fs p).error = Option.none ∧ env.removeError p = Option.none ∧
        (∃ c, fs.node p = some (.file c)) ∧
        (QFile.remove env fs p).fs = (fs.record (.remove p)).set p Option.none) ∨
      ((QFile.remove env fs p).error ≠ Option.none ∧
        (QFile.remove env fs p).fs = fs.record (.remove p)) := by
  unfold QFile.remove
  cases h : env.removeError p with
  | some e => simp
  | none =>
    cases hn : fs.node p with
    | none => simp [hn]
    | some n => cases n <;> simp [hn]

theorem QFile.rename_cases (env : Faults) (fs : FileSystem) (src dst : QString) :
    ((QFile.rename env fs src dst).error = Option.none ∧
        env.renameError src dst = Option.none ∧ fs.node dst = Option.none ∧
        (∃ n, fs.node src = some n ∧ (QFile.rename env fs src dst).fs =
          ((fs.record (.rename src dst)).set src Option.none).set dst (some n))) ∨
      ((QFile.rename env fs src dst).error ≠ Option.none ∧
        (QFile.rename env fs src dst).fs = fs.record (.rename src dst)) := by
  unfold QFile.rename
  cases hs : fs.node src with
  | none => simp [hs]
  | some n =>
    cases hd : fs.node dst with
    | some m => simp [hs, hd]
    | none =>
      cases hr : env.renameError src dst with
      | some e => simp [hs, hd, hr]
      | none => simp [hs, hd, hr]

theorem QFile.open_node_ne (env : Faults) (fs : FileSystem) (p q : QString) (hq : q ≠ p) :
    (QFile.open env fs p).fs.node q = fs.node q := by
  rcases QFile.open_cases env fs p with ⟨-, -, -, h⟩ | ⟨-, h⟩ <;> simp [h, hq]

theorem QFile.write_node_ne (env : Faults) (fs : FileSystem) (p : QString) (d : QByteArray)
    (q : QString) (hq : q ≠ p) : (QFile.write env fs p d).fs.node q = fs.node q := by
  unfold QFile.write
  split
  · rfl
  · simp [QFSFileEngine.write, FileSystem.append_node_ne _ _ _ _ hq]

theorem QFile.close_node_ne (env : Faults) (fs : FileSystem) (p : QString) (b : QByteArray)
    (q : QString) (hq : q ≠ p) : (QFile.close env fs p b).node q = fs.node q := by
  unfold QFile.close
  split
  · rfl
  · simp [QFSFileEngine.write, FileSystem.append_node_ne _ _ _ _ hq]

theorem updateFileSafely_eq (env : Faults) (fs : FileSystem) (P : QString) (C : QByteArray) :
    updateFileSafely env fs P C =
      match (afterOpen env fs P).error with
      | some e => ("Could not open file " ++ (P ++ ".new") ++ " for writing: " ++ e,
          (afterOpen env fs P).fs)
      | Option.none =>
        match (afterWrite env fs P C).error with
        | some e => ("Could not write to file " ++ (P ++ ".new") ++ ": " ++ e,
            (afterWrite env fs P C).fs)
        | Option.none =>
          match (afterRemove env fs P C).error with
          | some e => ("Could not delete the previous file " ++ P ++ ": " ++ e,
              (afterRemove env fs P C).fs)
          | Option.none =>
            match (afterRename env fs P C).error with
            | some e => ("Could not rename the new file " ++ (P ++ ".new") ++ " back to " ++ P
                ++ ": " ++ e, (afterRename env fs P C).fs)
            | Option.none => ("", (afterRename env fs P C).fs) := rfl

theorem append_ne_empty_left {a : String} (b : String) (ha : a ≠ "") : a ++ b ≠ "" := by
  intro h
  apply ha
  have := congrArg String.length h
  simp [String.length_append] at this
  exact String.ext (List.eq_nil_of_length_eq_zero this.1)

/-- The answer of `updateFileSafely` is the empty text exactly when no step reported an
error. -/
theorem updateFileSafely_empty_iff (env : Faults) (fs : FileSystem) (P : QString)
    (C : QByteArray) :
    (updateFileSafely env fs P C).1 = "" ↔
      (afterOpen env fs P).error = Option.none ∧ (afterWrite env fs P C).error = Option.none ∧
        (afterRemove env fs P C).error = Option.none ∧
        (afterRename env fs P C).error = Option.none := by
  rw [updateFileSafely_eq]
  cases h1 : (afterOpen env fs P).error with
  | some e =>
    simp only [false_and, iff_false, reduceCtorEq]
    exact append_ne_empty_left _ (append_ne_empty_left _ (append_ne_empty_left _ (by decide)))
  | none =>
    cases h2 : (afterWrite env fs P C).error with
    | some e =>
      simp only [false_and, and_false, iff_false, reduceCtorEq]
      exact append_ne_empty_left _ (append_ne_empty_left _ (append_ne_empty_left _ (by decide)))
    | none =>
      cases h3 : (afterRemove env fs P C).error with
      | some e =>
        simp only [false_and, and_false, iff_false, reduceCtorEq]
        exact append_ne_empty_left _ (append_ne_empty_left _ (append_ne_empty_left _
          (by decide)))
      | none =>
        cases h4 : (afterRename env fs P C).error with
        | some e =>
          simp only [false_and, and_false, iff_false, reduceCtorEq]
          exact append_ne_empty_left _ (append_ne_empty_left _ (append_ne_empty_left _
            (append_ne_empty_left _ (append_ne_empty_left _ (by decide)))))
        | none => simp

theorem updateFileSafely_fs_of_success (env : Faults) (fs : FileSystem) (P : QString)
    (C : QByteArray) (h : (updateFileSafely env fs P C).1 = "") :
    (updateFileSafely env fs P C).2 = (afterRename env fs P C).fs := by
  obtain ⟨h1, h2, h3, h4⟩ := (updateFileSafely_empty_iff env fs P C).1 h
  rw [updateFileSafely_eq]
  simp only [h1, h2, h3, h4]

/-- Until the deletion nothing but the `.new` path is written to. -/
theorem afterClose_node_ne (env : Faults) (fs : FileSystem) (P : QString) (C : QByteArray)
    (q : QString) (hq : q ≠ P ++ ".new") : (afterClose env fs P C).node q = fs.node q := by
  rw [afterClose, QFile.close_node_ne _ _ _ _ _ hq, afterWrite, QFile.write_node_ne _ _ _ _ _ hq,
    afterOpen, QFile.open_node_ne _ _ _ _ hq]

theorem updateFileSafely_open_refused_example :
    updateFileSafely
        { Faults.none with openError := fun _ => some "Permission denied" }
        ⟨fun q => if q = "cfg" then some (.file [1]) else Option.none, []⟩ "cfg" [7, 8] =
      ("Could not open file cfg.new for writing: Permission denied",
        ⟨fun q => if q = "cfg" then some (.file [1]) else Option.none, [.open "cfg.new"]⟩) := by
  rfl

theorem updateFileSafely_remove_refused_example :
    (updateFileSafely
        { Faults.none with removeError := fun _ => some "Permission denied" }
        ⟨fun q => if q = "cfg" then some (.file [1]) else Option.none, []⟩ "cfg" [7, 8]).1 =
      "Could not delete the previous file cfg: Permission denied" := by
  decide

theorem updateFileSafely_rename_refused_example :
    (updateFileSafely
        { Faults.none with renameError := fun _ _ => some "Access is denied" }
        ⟨fun q => if q = "cfg" then some (.file [1]) else Option.none, []⟩ "cfg" [7, 8]).1 =
      "Could not rename the new file cfg.new back to cfg: Access is denied" ∧
    (updateFileSafely
        { Faults.none with renameError := fun _ _ => some "Access is denied" }
        ⟨fun q => if q = "cfg" then some (.file [1]) else Option.none, []⟩ "cfg" [7, 8]).2.journal =
      [.open "cfg.new", .write "cfg.new", .close "cfg.new", .remove "cfg",
        .rename "cfg.new" "cfg"] ∧
    (updateFileSafely
        { Faults.none with renameError := fun _ _ => some "Access is denied" }
        ⟨fun q => if q = "cfg" then some (.file [1]) else Option.none, []⟩ "cfg" [7, 8]).2.node
      "cfg" = Option.none := by
  decide

/-- A write is reported as failed when the data does not fit the write buffer and the
device takes none of it. -/
theorem updateFileSafely_write_refused (fs : FileSystem) (P : QString) (C : QByteArray)
    (e : String) (hC : QFile.writeBufferSize < C.length)
    (hfs : fs.node (P ++ ".new") ≠ some .directory) :
    (updateFileSafely { Faults.none with writeError := fun _ => some (0, e) } fs P C).1 =
      "Could not write to file " ++ (P ++ ".new") ++ ": " ++ e := by
  have h1 : (afterOpen { Faults.none with writeError := fun _ => some (0, e) } fs P).error =
      Option.none := by
    rcases QFile.open_cases { Faults.none with writeError := fun _ => some (0, e) } fs
      (P ++ ".new") with ⟨h, -⟩ | ⟨h, -⟩
    · exact h
    · exfalso
      apply h
      unfold QFile.open
      cases hn : fs.node (P ++ ".new") with
      | none => simp [Faults.none, hn]
      | some n =>
        cases n with
        | file c => simp [Faults.none, hn]
        | directory => exact absurd hn hfs
  have hlen : C.length ≠ 0 := by
    have : 0 < C.length := lt_of_le_of_lt (Nat.zero_le _) hC
    omega
  have h2 : (afterWrite { Faults.none with writeError := fun _ => some (0, e) } fs P C).error =
      some e := by
    simp [afterWrite, QFile.write, QFSFileEngine.write, QFSFileEngine.taken, Nat.not_le.2 hC, hlen]
  rw [updateFileSafely_eq]
  simp only [h1, h2]

/-! ### What a successful updateFileSafely leaves behind -/

theorem directData_append_bufferedData (C : QByteArray) :
    directData C ++ bufferedData C = C := by
  unfold directData bufferedData
  split <;> simp

theorem QFSFileEngine.taken_nil (env : Faults) (p : QString) :
    QFSFileEngine.taken env p [] = 0 := by
  unfold QFSFileEngine.taken
  split <;> simp

theorem QFSFileEngine.taken_le (env : Faults) (p : QString) (d : QByteArray) :
    QFSFileEngine.taken env p d ≤ d.length := by
  unfold QFSFileEngine.taken
  split
  · exact Nat.min_le_right _ _
  · exact le_refl _

theorem QFSFileEngine.taken_of_sound (env : Faults) (p : QString) (d : QByteArray)
    (hw : env.writeError p = Option.none) : QFSFileEngine.taken env p d = d.length := by
  simp [QFSFileEngine.taken, hw]

/-- The outcome of the `write` call, in terms of what goes to the file engine at once and
what stays in the write buffer. -/
theorem afterWrite_eq (env : Faults) (fs : FileSystem) (P : QString) (C : QByteArray) :
    afterWrite env fs P C =
      ⟨(QFSFileEngine.write env fs (P ++ ".new") (directData C)).error,
        ((afterOpen env fs P).fs.append (P ++ ".new")
          ((directData C).take (QFSFileEngine.taken env (P ++ ".new") (directData C)))).record
            (.write (P ++ ".new")),
        bufferedData C⟩ := by
  unfold afterWrite QFile.write directData bufferedData
  by_cases h : C.length ≤ QFile.writeBufferSize
  · simp [h, QFSFileEngine.write, QFSFileEngine.taken_nil, FileSystem.append_nil]
  · simp [h, QFSFileEngine.write]

theorem afterClose_eq (env : Faults) (fs : FileSystem) (P : QString) (C : QByteArray) :
    afterClose env fs P C =
      ((afterWrite env fs P C).fs.append (P ++ ".new")
        ((bufferedData C).take (QFSFileEngine.taken env (P ++ ".new") (bufferedData C)))).record
          (.close (P ++ ".new")) := by
  have hb : (afterWrite env fs P C).buffer = bufferedData C := by rw [afterWrite_eq]
  unfold afterClose QFile.close
  rw [hb]
  by_cases h : (bufferedData C).isEmpty = true
  · have hnil : bufferedData C = [] := List.isEmpty_iff.1 h
    simp [hnil, FileSystem.append_nil]
  · simp [h, QFSFileEngine.write]

/-- After `close` the `.new` file holds the bytes of the new content that the device took:
all of them on a sound device, the first ones when the device failed. -/
theorem afterClose_node_new (env : Faults) (fs : FileSystem) (P : QString) (C : QByteArray)
    (h1 : (afterOpen env fs P).error = Option.none) :
    (afterClose env fs P C).node (P ++ ".new") =
      some (.file (C.take (QFSFileEngine.taken env (P ++ ".new") C))) := by
  have hopen : (afterOpen env fs P).fs.node (P ++ ".new") = some (.file []) := by
    rcases QFile.open_cases env fs (P ++ ".new") with ⟨-, -, -, hfs⟩ | ⟨hne, -⟩
    · simp [afterOpen, hfs]
    · exact absurd h1 hne
  rw [afterClose_eq, afterWrite_eq]
  simp only [FileSystem.record_node, FileSystem.append_record]
  rw [FileSystem.append_append]
  rw [FileSystem.append_node_file _ _ _ _ hopen]
  unfold directData bufferedData
  by_cases h : C.length ≤ QFile.writeBufferSize
  · simp [h, QFSFileEngine.taken_nil]
  · simp [h, QFSFileEngine.taken_nil]

theorem afterRemove_node (env : Faults) (fs : FileSystem) (P : QString) (C : QByteArray)
    (h3 : (afterRemove env fs P C).error = Option.none) (q : QString) :
    (afterRemove env fs P C).fs.node q =
      if q = P then Option.none else (afterClose env fs P C).node q := by
  unfold afterRemove at h3 ⊢
  by_cases hex : QFile.exists (afterClose env fs P C) P = true
  · rw [if_pos hex] at h3 ⊢
    rcases QFile.remove_cases env (afterClose env fs P C) P with ⟨-, -, -, hfs⟩ | ⟨hne, -⟩
    · simp only [hfs, FileSystem.set_node, FileSystem.record_node]
    · exact absurd h3 hne
  · rw [if_neg hex]
    by_cases hq : q = P
    · subst hq
      rw [if_pos rfl]
      cases hv : (afterClose env fs q C).node q with
      | none => rfl
      | some v => simp [QFile.exists, hv] at hex
    · rw [if_neg hq]

/-- The file system after a successful `updateFileSafely`: the target holds the bytes of
the new content that the device took, nothing is at the `.new` path, and every other path
is as before. -/
theorem updateFileSafely_node_of_success (env : Faults) (fs : FileSystem) (P : QString)
    (C : QByteArray) (h : (updateFileSafely env fs P C).1 = "") (q : QString) :
    (updateFileSafely env fs P C).2.node q =
      if q = P then some (.file (C.take (QFSFileEngine.taken env (P ++ ".new") C)))
      else if q = P ++ ".new" then Option.none else fs.node q := by
  rw [updateFileSafely_fs_of_success env fs P C h]
  obtain ⟨h1, h2, h3, h4⟩ := (updateFileSafely_empty_iff env fs P C).1 h
  have hr := afterRemove_node env fs P C h3
  have hN := afterClose_node_new env fs P C h1
  rcases QFile.rename_cases env (afterRemove env fs P C).fs (P ++ ".new") P with
    ⟨-, -, -, n, hn, hfs⟩ | ⟨hne, -⟩
  · rw [hr, if_neg (append_new_ne P), hN] at hn
    cases hn
    simp only [afterRename, hfs, FileSystem.set_node, FileSystem.record_node, hr]
    by_cases hq : q = P
    · simp [hq]
    · by_cases hq2 : q = P ++ ".new"
      · simp [hq, hq2]
      · simp [hq, hq2, afterClose_node_ne env fs P C q hq2]
  · exact absurd h4 hne

/-- On a device that takes every byte written to the `.new` path, a successful
`updateFileSafely` leaves exactly the new content at the target and nothing at the `.new`
path. -/
theorem updateFileSafely_success_of_sound_writes (env : Faults) (fs : FileSystem)
    (P : QString) (C : QByteArray) (hw : env.writeError (P ++ ".new") = Option.none)
    (h : (updateFileSafely env fs P C).1 = "") :
    (updateFileSafely env fs P C).2.node P = some (.file C) ∧
      (updateFileSafely env fs P C).2.node (P ++ ".new") = Option.none := by
  constructor
  · rw [updateFileSafely_node_of_success env fs P C h, if_pos rfl,
      QFSFileEngine.taken_of_sound env _ C hw, List.take_length]
  · rw [updateFileSafely_node_of_success env fs P C h, if_neg (append_new_ne P), if_pos rfl]

/-- C1, on a disk that takes one more byte: the three bytes of the new content stay in
the write buffer, `error()` shows nothing, the flush inside `close()` breaks off after the
first byte and nobody reads its error, the previous file is deleted and the truncated
`.new` file renamed onto it. `updateFileSafely` answers the empty (success) text and
reading the target yields `[7]`, not the new content `[7, 8, 9]`. -/
theorem updateFileSafely_success_with_truncated_target :
    (updateFileSafely
        { Faults.none with writeError := fun _ => some (1, "No space left on device") }
        ⟨fun q => if q = "cfg" then some (.file [1, 2, 3]) else Option.none, []⟩
        "cfg" [7, 8, 9]).1 = "" ∧
      (updateFileSafely
        { Faults.none with writeError := fun _ => some (1, "No space left on device") }
        ⟨fun q => if q = "cfg" then some (.file [1, 2, 3]) else Option.none, []⟩
        "cfg" [7, 8, 9]).2.node "cfg" = some (.file [7]) ∧
      FsNode.file [7] ≠ FsNode.file [7, 8, 9] := by
  decide

theorem updateFileSafely_write_refused_example :
    (updateFileSafely
        { Faults.none with writeError := fun _ => some (0, "No space left on device") }
        ⟨fun q => if q = "cfg" then some (.file [1]) else Option.none, []⟩ "cfg"
        (List.replicate 16385 0)).1 =
      "Could not write to file cfg.new: No space left on device" :=
  (updateFileSafely_write_refused _ "cfg" (List.replicate 16385 0) "No space left on device"
    (by rw [List.length_replicate]; exact Nat.lt_succ_self _) (by decide)).trans (by decide)

theorem updateFileSafely_success_of_sound_writes_example :
    (updateFileSafely Faults.none ⟨fun q => if q = "cfg" then some (.file [1]) else Option.none, []⟩
        "cfg" [7, 8]).1 = "" ∧
      ((updateFileSafely Faults.none
          ⟨fun q => if q = "cfg" then some (.file [1]) else Option.none, []⟩
          "cfg" [7, 8]).2.node "cfg" = some (.file [7, 8]) ∧
        (updateFileSafely Faults.none
          ⟨fun q => if q = "cfg" then some (.file [1]) else Option.none, []⟩
          "cfg" [7, 8]).2.node ("cfg" ++ ".new") = Option.none) :=
  ⟨by decide, updateFileSafely_success_of_sound_writes _ _ _ _ rfl (by decide)⟩

/-! ## Theorems: the steps of updateFileSafely -/

theorem run_returned (env : Faults) (P : QString) (C : QByteArray) (res : QString)
    (fs : FileSystem) : ∀ n, run env P C n ⟨.returned res, fs⟩ = ⟨.returned res, fs⟩
  | 0 => rfl
  | n + 1 => run_returned env P C res fs n

theorem run_add (env : Faults) (P : QString) (C : QByteArray) :
    ∀ (a b : Nat) (r : Run), run env P C (a + b) r = run env P C b (run env P C a r)
  | 0, b, r => by simp [run]
  | a + 1, b, r => by
    rw [Nat.add_right_comm]
    exact run_add env P C a b _

theorem run_stable (env : Faults) (P : QString) (C : QByteArray) (r : Run) (a : Nat)
    (res : QString) (fs : FileSystem) (h : run env P C a r = ⟨.returned res, fs⟩) (b : Nat)
    (hab : a ≤ b) : run env P C b r = ⟨.returned res, fs⟩ := by
  obtain ⟨d, rfl⟩ := Nat.exists_eq_add_of_le hab
  rw [run_add, h, run_returned]

theorem take_one_drop_append (l : QByteArray) (k d : Nat) :
    (l.drop k).take 1 ++ (l.drop (k + 1)).take d = (l.drop k).take (d + 1) := by
  rw [← List.tail_drop]
  cases l.drop k with
  | nil => simp
  | cons x rest => simp

theorem take_append_take_one_drop (l : QByteArray) (k : Nat) :
    l.take k ++ (l.drop k).take 1 = l.take (k + 1) := by
  induction l generalizing k with
  | nil => simp
  | cons x rest ih =>
    cases k with
    | zero => simp
    | succ k => simpa using ih k

theorem atWrite_loop (env : Faults) (P : QString) (C : QByteArray) :
    ∀ (d k : Nat) (fs : FileSystem),
      k + d ≤ QFSFileEngine.taken env (P ++ ".new") (directData C) →
      run env P C d ⟨.atWrite k, fs⟩ =
        ⟨.atWrite (k + d), fs.append (P ++ ".new") (((directData C).drop k).take d)⟩
  | 0, k, fs, _ => by simp [run, FileSystem.append_nil]
  | d + 1, k, fs, h => by
    have hlt : k < QFSFileEngine.taken env (P ++ ".new") (directData C) := by omega
    have hstep : step env P C ⟨.atWrite k, fs⟩ =
        ⟨.atWrite (k + 1), fs.append (P ++ ".new") (((directData C).drop k).take 1)⟩ := by
      simp only [step, if_pos hlt]
    rw [run, hstep, atWrite_loop env P C d (k + 1) _ (by omega), FileSystem.append_append,
      take_one_drop_append, Nat.add_right_comm, Nat.add_assoc]

theorem atClose_loop (env : Faults) (P : QString) (C : QByteArray) :
    ∀ (d k : Nat) (fs : FileSystem),
      k + d ≤ QFSFileEngine.taken env (P ++ ".new") (bufferedData C) →
      run env P C d ⟨.atClose k, fs⟩ =
        ⟨.atClose (k + d), fs.append (P ++ ".new") (((bufferedData C).drop k).take d)⟩
  | 0, k, fs, _ => by simp [run, FileSystem.append_nil]
  | d + 1, k, fs, h => by
    have hlt : k < QFSFileEngine.taken env (P ++ ".new") (bufferedData C) := by omega
    have hstep : step env P C ⟨.atClose k, fs⟩ =
        ⟨.atClose (k + 1), fs.append (P ++ ".new") (((bufferedData C).drop k).take 1)⟩ := by
      simp only [step, if_pos hlt]
    rw [run, hstep, atClose_loop env P C d (k + 1) _ (by omega), FileSystem.append_append,
      take_one_drop_append, Nat.add_right_comm, Nat.add_assoc]

theorem taken_direct_add_taken_buffered_le (env : Faults) (p : QString) (C : QByteArray) :
    QFSFileEngine.taken env p (directData C) + QFSFileEngine.taken env p (bufferedData C) ≤
      C.length := by
  have h1 := QFSFileEngine.taken_le env p (directData C)
  have h2 := QFSFileEngine.taken_le env p (bufferedData C)
  have h3 := congrArg List.length (directData_append_bufferedData C)
  rw [List.length_append] at h3
  omega

/-- Run without interruption, the steps end in the answer and the file system of
`updateFileSafely`: the step machine is the function, cut into crash points. -/
theorem run_reaches_result (env : Faults) (fs : FileSystem) (P : QString) (C : QByteArray) :
    run env P C (C.length + 5) ⟨.atOpen, fs⟩ =
      ⟨.returned (updateFileSafely env fs P C).1, (updateFileSafely env fs P C).2⟩ := by
  have hle := taken_direct_add_taken_buffered_le env (P ++ ".new") C
  rw [updateFileSafely_eq]
  have hopen : step env P C ⟨.atOpen, fs⟩ =
      match (afterOpen env fs P).error with
      | some e => ⟨.returned ("Could not open file " ++ (P ++ ".new") ++ " for writing: " ++ e),
          (afterOpen env fs P).fs⟩
      | Option.none => ⟨.atWrite 0, (afterOpen env fs P).fs⟩ := rfl
  rw [show C.length + 5 = (C.length + 4) + 1 from rfl, run, hopen]
  cases h1 : (afterOpen env fs P).error with
  | some e => exact run_returned env P C _ _ _
  | none =>
    simp only
    have hloop1 := atWrite_loop env P C
      (QFSFileEngine.taken env (P ++ ".new") (directData C)) 0 (afterOpen env fs P).fs
      (by omega)
    rw [Nat.zero_add, List.drop_zero] at hloop1
    have hwrite : step env P C ⟨.atWrite (QFSFileEngine.taken env (P ++ ".new") (directData C)),
        (afterOpen env fs P).fs.append (P ++ ".new")
          ((directData C).take (QFSFileEngine.taken env (P ++ ".new") (directData C)))⟩ =
        match (afterWrite env fs P C).error with
        | some e => ⟨.returned ("Could not write to file " ++ (P ++ ".new") ++ ": " ++ e),
            (afterWrite env fs P C).fs⟩
        | Option.none => ⟨.atClose 0, (afterWrite env fs P C).fs⟩ := by
      rw [afterWrite_eq]
      simp only [step, lt_irrefl, if_false]
      rfl
    have hrun1 : run env P C (QFSFileEngine.taken env (P ++ ".new") (directData C) + 1)
        ⟨.atWrite 0, (afterOpen env fs P).fs⟩ =
        match (afterWrite env fs P C).error with
        | some e => ⟨.returned ("Could not write to file " ++ (P ++ ".new") ++ ": " ++ e),
            (afterWrite env fs P C).fs⟩
        | Option.none => ⟨.atClose 0, (afterWrite env fs P C).fs⟩ := by
      rw [run_add, hloop1]
      exact hwrite
    cases h2 : (afterWrite env fs P C).error with
    | some e =>
      rw [h2] at hrun1
      exact run_stable env P C _ _ _ _ hrun1 _ (by omega)
    | none =>
      rw [h2] at hrun1
      simp only at hrun1 ⊢
      have hloop2 := atClose_loop env P C
        (QFSFileEngine.taken env (P ++ ".new") (bufferedData C)) 0 (afterWrite env fs P C).fs
        (by omega)
      rw [Nat.zero_add, List.drop_zero] at hloop2
      have hclose : step env P C
          ⟨.atClose (QFSFileEngine.taken env (P ++ ".new") (bufferedData C)),
            (afterWrite env fs P C).fs.append (P ++ ".new")
              ((bufferedData C).take (QFSFileEngine.taken env (P ++ ".new") (bufferedData C)))⟩ =
          ⟨.atRemove, afterClose env fs P C⟩ := by
        rw [afterClose_eq]
        simp only [step, lt_irrefl, if_false]
      have hremove : step env P C ⟨.atRemove, afterClose env fs P C⟩ =
          match (afterRemove env fs P C).error with
          | some e => ⟨.returned ("Could not delete the previous file " ++ P ++ ": " ++ e),
              (afterRemove env fs P C).fs⟩
          | Option.none => ⟨.atRename, (afterRemove env fs P C).fs⟩ := by
        simp only [step, afterRemove]
        by_cases hex : QFile.exists (afterClose env fs P C) P = true
        · simp only [if_pos hex]
        · simp only [if_neg hex]
      have hrename : step env P C ⟨.atRename, (afterRemove env fs P C).fs⟩ =
          match (afterRename env fs P C).error with
          | some e => ⟨.returned ("Could not rename the new file " ++ (P ++ ".new")
              ++ " back to " ++ P ++ ": " ++ e), (afterRename env fs P C).fs⟩
          | Option.none => ⟨.returned "", (afterRename env fs P C).fs⟩ := rfl
      have hrun2 : run env P C
          (QFSFileEngine.taken env (P ++ ".new") (directData C) + 1 +
            QFSFileEngine.taken env (P ++ ".new") (bufferedData C) + 1)
          ⟨.atWrite 0, (afterOpen env fs P).fs⟩ = ⟨.atRemove, afterClose env fs P C⟩ := by
        rw [run_add, run_add, hrun1, hloop2]
        exact hclose
      cases h3 : (afterRemove env fs P C).error with
      | some e =>
        rw [h3] at hremove
        have hrun3 : run env P C
            (QFSFileEngine.taken env (P ++ ".new") (directData C) + 1 +
              QFSFileEngine.taken env (P ++ ".new") (bufferedData C) + 1 + 1)
            ⟨.atWrite 0, (afterOpen env fs P).fs⟩ =
            ⟨.returned ("Could not delete the previous file " ++ P ++ ": " ++ e),
              (afterRemove env fs P C).fs⟩ := by
          rw [run_add, hrun2]
          exact hremove
        exact run_stable env P C _ _ _ _ hrun3 _ (by omega)
      | none =>
        rw [h3] at hremove
        simp only at hremove ⊢
        have hrun4 : run env P C
            (QFSFileEngine.taken env (P ++ ".new") (directData C) + 1 +
              QFSFileEngine.taken env (P ++ ".new") (bufferedData C) + 1 + 1 + 1)
            ⟨.atWrite 0, (afterOpen env fs P).fs⟩ =
            match (afterRename env fs P C).error with
            | some e => ⟨.returned ("Could not rename the new file " ++ (P ++ ".new")
                ++ " back to " ++ P ++ ": " ++ e), (afterRename env fs P C).fs⟩
            | Option.none => ⟨.returned "", (afterRename env fs P C).fs⟩ := by
          rw [run_add, run_add, hrun2]
          show run env P C 1 (step env P C _) = _
          rw [hremove]
          exact hrename
        cases h4 : (afterRename env fs P C).error with
        | some e =>
          rw [h4] at hrun4
          exact run_stable env P C _ _ _ _ hrun4 _ (by omega)
        | none =>
          rw [h4] at hrun4
          exact run_stable env P C _ _ _ _ hrun4 _ (by omega)

/-! ## Theorems: crash safety of updateFileSafely -/

theorem step_preserves (env : Faults) (fs0 : FileSystem) (P : QString) (C : QByteArray)
    (hw : env.writeError (P ++ ".new") = Option.none)
    (r : Run) (h : StageInv fs0 P C r) : StageInv fs0 P C (step env P C r) := by
  obtain ⟨stage, fs⟩ := r
  obtain ⟨hframe, hnew, hst⟩ := h
  cases stage with
  | atOpen =>
    simp only at hst hframe
    simp only [step]
    rcases QFile.open_cases env fs (P ++ ".new") with ⟨he, -, -, hfs⟩ | ⟨hne, hfs⟩
    · rw [he]
      refine ⟨fun q hq hq2 => ?_, ?_, ?_, Nat.zero_le _⟩
      · simp [hfs, hq2, hframe q hq hq2]
      · intro bytes hb
        simp only [Stage.written, List.take_zero, Option.some.injEq] at hb
        simp [hfs, ← hb]
      · simp [hfs, ne_append_new P, hst]
    · cases hoe : (QFile.open env fs (P ++ ".new")).error with
      | none => exact absurd hoe hne
      | some e =>
        refine ⟨fun q hq hq2 => ?_, ?_, Or.inl ?_⟩
        · simp [hfs, hframe q hq hq2]
        · intro bytes hb
          simp [Stage.written] at hb
        · simp [hfs, hst]
  | atWrite k =>
    simp only at hst hframe hnew
    obtain ⟨hP, hk⟩ := hst
    have hN := hnew _ rfl
    have htaken := QFSFileEngine.taken_of_sound env _ (directData C) hw
    simp only [step, htaken]
    by_cases hlt : k < (directData C).length
    · rw [if_pos hlt]
      refine ⟨fun q hq hq2 => ?_, ?_, ?_, hlt⟩
      · simp [FileSystem.append_node_ne _ _ _ _ hq2, hframe q hq hq2]
      · intro bytes hb
        simp only [Stage.written, Option.some.injEq] at hb
        simp only
        rw [FileSystem.append_node_file _ _ _ _ hN, take_append_take_one_drop, hb]
      · simp [FileSystem.append_node_ne _ _ _ _ (ne_append_new P), hP]
    · rw [if_neg hlt]
      have hkC : k = (directData C).length := le_antisymm hk (not_lt.mp hlt)
      have herr : (QFSFileEngine.write env fs (P ++ ".new") (directData C)).error =
          Option.none := by
        simp [QFSFileEngine.write, hw]
      rw [herr]
      refine ⟨fun q hq hq2 => by simp [hframe q hq hq2], ?_, by simp [hP], Nat.zero_le _⟩
      intro bytes hb
      simp only [Stage.written, List.take_zero, List.append_nil, Option.some.injEq] at hb
      simp only [FileSystem.record_node]
      rw [hN, hkC, List.take_length, hb]
  | atClose k =>
    simp only at hst hframe hnew
    obtain ⟨hP, hk⟩ := hst
    have hN := hnew _ rfl
    have htaken := QFSFileEngine.taken_of_sound env _ (bufferedData C) hw
    simp only [step, htaken]
    by_cases hlt : k < (bufferedData C).length
    · rw [if_pos hlt]
      refine ⟨fun q hq hq2 => ?_, ?_, ?_, hlt⟩
      · simp [FileSystem.append_node_ne _ _ _ _ hq2, hframe q hq hq2]
      · intro bytes hb
        simp only [Stage.written, Option.some.injEq] at hb
        simp only
        rw [FileSystem.append_node_file _ _ _ _ hN, List.append_assoc,
          take_append_take_one_drop, hb]
      · simp [FileSystem.append_node_ne _ _ _ _ (ne_append_new P), hP]
    · rw [if_neg hlt]
      have hkC : k = (bufferedData C).length := le_antisymm hk (not_lt.mp hlt)
      refine ⟨fun q hq hq2 => by simp [hframe q hq hq2], ?_, by simp [hP]⟩
      intro bytes hb
      simp only [Stage.written, Option.some.injEq] at hb
      simp only [FileSystem.record_node]
      rw [hN, hkC, List.take_length, directData_append_bufferedData, hb]
  | atRemove =>
    simp only at hst hframe hnew
    have hN := hnew _ rfl
    simp only [step]
    by_cases hex : QFile.exists fs P = true
    · rw [if_pos hex]
      rcases QFile.remove_cases env fs P with ⟨he, -, -, hfs⟩ | ⟨hne, hfs⟩
      · rw [he]
        refine ⟨fun q hq hq2 => ?_, ?_, ?_⟩
        · simp [hfs, hq, hframe q hq hq2]
        · intro bytes hb
          simp only [Stage.written, Option.some.injEq] at hb
          simp [hfs, append_new_ne P, hN, hb]
        · simp [hfs]
      · cases hoe : (QFile.remove env fs P).error with
        | none => exact absurd hoe hne
        | some e =>
          refine ⟨fun q hq hq2 => ?_, ?_, Or.inl ?_⟩
          · simp [hfs, hframe q hq hq2]
          · intro bytes hb
            simp [Stage.written] at hb
          · simp [hfs, hst]
    · rw [if_neg hex]
      refine ⟨hframe, ?_, ?_⟩
      · intro bytes hb
        simp only [Stage.written, Option.some.injEq] at hb
        rw [hN, hb]
      · cases hv : fs.node P with
        | none => rfl
        | some v => simp [QFile.exists, hv] at hex
  | atRename =>
    simp only at hst hframe hnew
    have hN := hnew _ rfl
    simp only [step]
    rcases QFile.rename_cases env fs (P ++ ".new") P with
      ⟨he, -, -, n, hn, hfs⟩ | ⟨hne, hfs⟩
    · rw [he]
      rw [hN] at hn
      cases hn
      refine ⟨fun q hq hq2 => ?_, ?_, Or.inr (Or.inr ?_)⟩
      · simp [hfs, hq, hq2, hframe q hq hq2]
      · intro bytes hb
        simp [Stage.written] at hb
      · simp [hfs]
    · cases hoe : (QFile.rename env fs (P ++ ".new") P).error with
      | none => exact absurd hoe hne
      | some e =>
        refine ⟨fun q hq hq2 => ?_, ?_, Or.inr (Or.inl ?_)⟩
        · simp [hfs, hframe q hq hq2]
        · intro bytes hb
          simp [Stage.written] at hb
        · simp [hfs, hst]
  | returned res => exact ⟨hframe, hnew, hst⟩

theorem run_preserves (env : Faults) (fs0 : FileSystem) (P : QString) (C : QByteArray)
    (hw : env.writeError (P ++ ".new") = Option.none) :
    ∀ (n : Nat) (r : Run), StageInv fs0 P C r → StageInv fs0 P C (run env P C n r)
  | 0, _, h => h
  | n + 1, r, h => run_preserves env fs0 P C hw n _ (step_preserves env fs0 P C hw r h)

theorem stageInv_start (fs : FileSystem) (P : QString) (C : QByteArray) :
    StageInv fs P C ⟨.atOpen, fs⟩ :=
  ⟨fun _ _ _ => rfl, fun _ hb => by simp [Stage.written] at hb, rfl⟩

theorem stageInv_target (fs0 : FileSystem) (P : QString) (C : QByteArray) (r : Run)
    (h : StageInv fs0 P C r) :
    r.fs.node P = fs0.node P ∨ r.fs.node P = Option.none ∨ r.fs.node P = some (.file C) := by
  obtain ⟨stage, fs⟩ := r
  obtain ⟨-, -, hst⟩ := h
  cases stage with
  | atOpen => exact Or.inl hst
  | atWrite k => exact Or.inl hst.1
  | atClose k => exact Or.inl hst.1
  | atRemove => exact Or.inl hst
  | atRename => exact Or.inr (Or.inl hst)
  | returned res => exact hst

/-- As long as the device takes every byte written to the `.new` path, an interruption
is harmless: wherever the execution of `updateFileSafely P C` is cut off (after any
number of steps, also between two bytes that reach the file), a file found at `P` holds
either the complete original content or exactly `C`, and every path other than `P` and
`P.new` is as it was. Refused opens, deletions and renames are allowed. -/
theorem updateFileSafely_target_intact_of_sound_writes (env : Faults) (fs : FileSystem)
    (P : QString) (C : QByteArray) (hw : env.writeError (P ++ ".new") = Option.none)
    (n : Nat) :
    (∀ c, (run env P C n ⟨.atOpen, fs⟩).fs.node P = some (.file c) →
        fs.node P = some (.file c) ∨ c = C) ∧
      (∀ q, q ≠ P → q ≠ P ++ ".new" →
        (run env P C n ⟨.atOpen, fs⟩).fs.node q = fs.node q) := by
  have hinv := run_preserves env fs P C hw n _ (stageInv_start fs P C)
  refine ⟨fun c hc => ?_, hinv.1⟩
  rcases stageInv_target fs P C _ hinv with h | h | h
  · exact Or.inl (h ▸ hc)
  · rw [h] at hc; cases hc
  · rw [h] at hc
    injection hc with hc
    injection hc with hc
    exact Or.inr hc.symm

theorem run_mid_flush_example :
    (run Faults.none "cfg" [7, 8, 9] 4
        ⟨.atOpen, ⟨fun q => if q = "cfg" then some (.file [1]) else Option.none, []⟩⟩).fs.node
          "cfg.new" = some (.file [7, 8]) ∧
      (run Faults.none "cfg" [7, 8, 9] 4
        ⟨.atOpen, ⟨fun q => if q = "cfg" then some (.file [1]) else Option.none, []⟩⟩).fs.node
          "cfg" = some (.file [1]) := by
  decide

theorem run_between_remove_and_rename_example :
    (run Faults.none "cfg" [7, 8, 9] 7
        ⟨.atOpen, ⟨fun q => if q = "cfg" then some (.file [1]) else Option.none, []⟩⟩).fs.node
          "cfg" = Option.none := by
  decide

/-- C2, on a disk that takes one more byte: no step reports an error (the flush inside
`close()` breaks off after the first byte and its error is never read), so the steps go
on to delete the target and to rename the truncated `.new` file onto it. After six steps
the call has returned the empty text and the file at the target holds `[7]`: neither the
original content `[1, 2, 3]` nor the new content `[7, 8, 9]`. -/
theorem run_reaches_truncated_target :
    (run { Faults.none with writeError := fun _ => some (1, "No space left on device") }
        "cfg" [7, 8, 9] 6
        ⟨.atOpen, ⟨fun q => if q = "cfg" then some (.file [1, 2, 3]) else Option.none, []⟩⟩).stage
          = .returned "" ∧
      (run { Faults.none with writeError := fun _ => some (1, "No space left on device") }
        "cfg" [7, 8, 9] 6
        ⟨.atOpen, ⟨fun q => if q = "cfg" then some (.file [1, 2, 3]) else Option.none, []⟩⟩).fs.node
          "cfg" = some (.file [7]) ∧
      FsNode.file [7] ≠ FsNode.file [1, 2, 3] ∧ FsNode.file [7] ≠ FsNode.file [7, 8, 9] := by
  decide

theorem updateFileSafely_target_intact_of_sound_writes_example :
    (∀ c, (run Faults.none "cfg" [7, 8, 9] 4
          ⟨.atOpen, ⟨fun q => if q = "cfg" then some (.file [1]) else Option.none, []⟩⟩).fs.node
            "cfg" = some (.file c) →
        (if "cfg" = "cfg" then some (FsNode.file [1]) else Option.none) = some (.file c) ∨
          c = [7, 8, 9]) ∧
      (∀ q, q ≠ "cfg" → q ≠ "cfg" ++ ".new" →
        (run Faults.none "cfg" [7, 8, 9] 4
          ⟨.atOpen, ⟨fun q => if q = "cfg" then some (.file [1]) else Option.none, []⟩⟩).fs.node
            q = if q = "cfg" then some (FsNode.file [1]) else Option.none) :=
  updateFileSafely_target_intact_of_sound_writes Faults.none
    ⟨fun q => if q = "cfg" then some (.file [1]) else Option.none, []⟩ "cfg" [7, 8, 9] rfl 4

/-! ## Theorems: isDirectoryWritable -/

/-- When the directory is writable and nothing is at the probe path, the probe answers
true and every path names afterwards what it named before. -/
theorem isDirectoryWritable_of_vacant_probe (env : Faults) (fs : FileSystem) (D : QString)
    (hD : DirectoryWritable env fs D)
    (hvacant : fs.node (getPathFromFileName D "write_test.txt") = Option.none) :
    (isDirectoryWritable env fs D).1 = true ∧ (isDirectoryWritable env fs D).2.node = fs.node := by
  obtain ⟨-, hperm⟩ := hD
  obtain ⟨ho, hr⟩ := hperm "write_test.txt"
  simp only [isDirectoryWritable, tryToWriteFile, QFile.open, QFile.close, QFile.remove, ho, hr,
    FileSystem.record_node, hvacant, FileSystem.set_node, if_true, true_and, List.isEmpty_nil]
  funext q
  simp only [FileSystem.set_node, FileSystem.record_node]
  by_cases hq : q = getPathFromFileName D "write_test.txt"
  · simp [hq, hvacant]
  · simp [hq]

/-- C5, at a writable directory `D` that already holds a file `write_test.txt`: the probe
answers true, and the entry `write_test.txt` that was listed before the call is not
listed after it. The listing is not unchanged. -/
theorem isDirectoryWritable_removes_existing_entry :
    DirectoryWritable Faults.none
        ⟨fun q => if q = "D" then some .directory
          else if q = "D/write_test.txt" then some (.file [1, 2, 3]) else Option.none, []⟩ "D" ∧
      hasEntry
        ⟨fun q => if q = "D" then some .directory
          else if q = "D/write_test.txt" then some (.file [1, 2, 3]) else Option.none, []⟩
        "D" "write_test.txt" = true ∧
      (isDirectoryWritable Faults.none
        ⟨fun q => if q = "D" then some .directory
          else if q = "D/write_test.txt" then some (.file [1, 2, 3]) else Option.none, []⟩
        "D").1 = true ∧
      hasEntry (isDirectoryWritable Faults.none
        ⟨fun q => if q = "D" then some .directory
          else if q = "D/write_test.txt" then some (.file [1, 2, 3]) else Option.none, []⟩
        "D").2 "D" "write_test.txt" = false := by
  refine ⟨⟨by decide, fun name => ⟨rfl, rfl⟩⟩, by decide, by decide, by decide⟩

/-! ## Theorems: traverseDirectory -/

theorem traverseDirectory_of_guard (root : FsTree) (fuel : Nat) (dir : Path)
    (recursively : Bool) (typesToVisit : EntryTypes) (pathContext : PathContext)
    (h : dir = [] ∨ QDir.exists root dir = false) :
    traverseDirectory root fuel dir recursively typesToVisit pathContext = ⟨[], true⟩ := by
  unfold traverseDirectory
  rcases h with h | h
  · simp [h]
  · simp [h]

theorem traverseDirectory_succ (root : FsTree) (fuel : Nat) (dir : Path)
    (recursively : Bool) (typesToVisit : EntryTypes) (pathContext : PathContext)
    (hdir : dir ≠ []) (hex : QDir.exists root dir = true) :
    traverseDirectory root (fuel + 1) dir recursively typesToVisit pathContext =
      traverseDirectory.loop
        (traverseDirectory.body root
          (fun entryPath =>
            traverseDirectory root fuel entryPath recursively typesToVisit pathContext)
          dir recursively typesToVisit pathContext)
        (QDirIterator.fileNames root dir) := by
  rw [traverseDirectory]
  simp [hdir, hex]

/-- C7: on a root path that is empty or names no existing directory, `traverseDirectory`
calls the visitor zero times and returns, whatever the recursive flag, the entry types and
the path transform are. -/
theorem traverseDirectory_missing_root (root : FsTree) (fuel : Nat) (dir : Path)
    (recursively : Bool) (typesToVisit : EntryTypes) (pathContext : PathContext)
    (h : dir = [] ∨ QDir.exists root dir = false) :
    (traverseDirectory root fuel dir recursively typesToVisit pathContext).visits = [] ∧
      (traverseDirectory root fuel dir recursively typesToVisit pathContext).finished = true := by
  rw [traverseDirectory_of_guard root fuel dir recursively typesToVisit pathContext h]
  exact ⟨rfl, rfl⟩

theorem traverseDirectory_missing_root_witness :
    ((["missing"] : Path) = [] ∨ QDir.exists (.dir [("a", .file)]) ["missing"] = false) ∧
      ((traverseDirectory (.dir [("a", .file)]) 5 ["missing"] true [.FILE, .DIR]
          PathContext.identity).visits = [] ∧
        (traverseDirectory (.dir [("a", .file)]) 5 ["missing"] true [.FILE, .DIR]
          PathContext.identity).finished = true) :=
  ⟨Or.inr (by decide), traverseDirectory_missing_root _ _ _ _ _ _ (Or.inr (by decide))⟩

theorem traverseDirectory.loop_visits_nil (body : String → Outcome)
    (hbody : ∀ name, (body name).visits = []) :
    ∀ names, (traverseDirectory.loop body names).visits = []
  | [] => rfl
  | name :: rest => by
    unfold traverseDirectory.loop
    by_cases hf : (body name).finished = true
    · simp [hf, hbody name, traverseDirectory.loop_visits_nil body hbody rest]
    · simp [hf, hbody name]

/-- C10: with the empty set of entry types `traverseDirectory` never calls the visitor,
whatever the root, the recursive flag and the path transform are and however deep the
recursion goes. -/
theorem traverseDirectory_empty_types (root : FsTree) (fuel : Nat) (dir : Path)
    (recursively : Bool) (pathContext : PathContext) :
    (traverseDirectory root fuel dir recursively [] pathContext).visits = [] := by
  induction fuel generalizing dir with
  | zero =>
    unfold traverseDirectory
    split
    · rfl
    · split <;> rfl
  | succ fuel ih =>
    by_cases hg : dir = [] ∨ QDir.exists root dir = false
    · rw [traverseDirectory_of_guard root _ dir recursively [] pathContext hg]
    · have hdir : dir ≠ [] := fun h => hg (Or.inl h)
      have hex : QDir.exists root dir = true := by
        cases h : QDir.exists root dir with
        | true => rfl
        | false => exact absurd (Or.inr h) hg
      rw [traverseDirectory_succ root fuel dir recursively [] pathContext hdir hex]
      apply traverseDirectory.loop_visits_nil
      intro name
      unfold traverseDirectory.body
      simp only [EntryTypes.isSet, List.contains_nil, Bool.false_eq_true, if_false,
        List.nil_append]
      split
      · split
        · split
          · exact ih _
          · rfl
        · rfl
      · rfl

/-! ### Paths and well-formed trees -/

theorem FsTree.walk_nil (t : FsTree) : t.walk [] = some t := by
  cases t <;> rfl

theorem FsTree.walk_dir_cons (es : List (String × FsTree)) (c : String) (rest : Path) :
    (FsTree.dir es).walk (c :: rest) =
      match es.lookup c with
      | some t => t.walk rest
      | Option.none => Option.none := rfl

theorem FsTree.walk_file_cons (c : String) (rest : Path) :
    FsTree.file.walk (c :: rest) = Option.none := rfl

theorem Location.walk_append (p q : Path) :
    ∀ loc : Location, loc.walk (p ++ q) = (loc.walk p).bind (fun next => next.walk q) := by
  induction p with
  | nil => intro loc; simp [Location.walk]
  | cons c rest ih =>
    intro loc
    simp only [List.cons_append, Location.walk]
    cases loc.step c with
    | none => rfl
    | some next => exact ih next

theorem Location.walk_singleton (loc : Location) (c : String) :
    loc.walk [c] = loc.step c := by
  simp only [Location.walk]
  cases loc.step c <;> rfl

theorem validName_iff (name : String) :
    validName name = true ↔
      name ≠ "" ∧ name ≠ "." ∧ name ≠ ".." ∧ ¬ ('/' ∈ name.data) := by
  simp [validName, and_assoc]

theorem FsTree.wfList_cons (e : String × FsTree) (rest : List (String × FsTree)) :
    FsTree.wfList (e :: rest) = true ↔
      validName e.1 = true ∧ e.1 ∉ rest.map Prod.fst ∧ e.2.wf = true ∧
        FsTree.wfList rest = true := by
  simp [FsTree.wfList, and_assoc]

theorem FsTree.wfList_mem {es : List (String × FsTree)} (h : FsTree.wfList es = true)
    {e : String × FsTree} (he : e ∈ es) :
    e.1 ≠ "." ∧ e.1 ≠ ".." ∧ e.2.wf = true ∧ es.lookup e.1 = some e.2 := by
  induction es with
  | nil => cases he
  | cons d rest ih =>
    obtain ⟨hv, h3, h4, h5⟩ := (FsTree.wfList_cons d rest).1 h
    obtain ⟨-, h1, h2, -⟩ := (validName_iff d.1).1 hv
    rcases List.mem_cons.1 he with rfl | hmem
    · refine ⟨h1, h2, h4, ?_⟩
      simp [List.lookup]
    · obtain ⟨i1, i2, i3, i4⟩ := ih h5 hmem
      refine ⟨i1, i2, i3, ?_⟩
      have hne : e.1 ≠ d.1 := by
        intro heq
        exact h3 (heq ▸ List.mem_map_of_mem Prod.fst hmem)
      obtain ⟨dn, dt⟩ := d
      rw [List.lookup_cons]
      have : (e.1 == dn) = false := by simpa using hne
      simp [this, i4]

theorem lookup_mem {es : List (String × FsTree)} {c : String} {t : FsTree}
    (h : es.lookup c = some t) : (c, t) ∈ es := by
  induction es with
  | nil => cases h
  | cons d rest ih =>
    obtain ⟨dn, dt⟩ := d
    rw [List.lookup_cons] at h
    by_cases hc : c = dn
    · subst hc
      simp at h
      subst h
      exact List.mem_cons_self _ _
    · have : (c == dn) = false := by simpa using hc
      rw [this] at h
      exact List.mem_cons_of_mem _ (ih h)

theorem FsTree.wf_dir {es : List (String × FsTree)} :
    (FsTree.dir es).wf = true ↔ FsTree.wfList es = true := by
  rw [FsTree.wf]

theorem FsTree.wf_walk (t : FsTree) (p : Path) (t1 : FsTree) (hwf : t.wf = true)
    (h : t.walk p = some t1) : t1.wf = true := by
  induction p generalizing t with
  | nil =>
    rw [FsTree.walk_nil] at h
    cases h
    exact hwf
  | cons c rest ih =>
    cases t with
    | file => cases h
    | dir es =>
      rw [FsTree.walk_dir_cons] at h
      cases hl : es.lookup c with
      | none => rw [hl] at h; cases h
      | some t2 =>
        rw [hl] at h
        exact ih t2 (FsTree.wfList_mem (FsTree.wf_dir.1 hwf) (lookup_mem hl)).2.2.1 h

theorem FsTree.heightList_mem {es : List (String × FsTree)} {e : String × FsTree}
    (he : e ∈ es) : e.2.height ≤ FsTree.heightList es := by
  induction es with
  | nil => cases he
  | cons d rest ih =>
    rw [FsTree.heightList]
    rcases List.mem_cons.1 he with rfl | hmem
    · exact le_max_left _ _
    · exact le_trans (ih hmem) (le_max_right _ _)

theorem Location.step_sound (loc next : Location) (c : String) (h : loc.Sound)
    (hs : loc.step c = some next) : next.Sound := by
  obtain ⟨here, above⟩ := loc
  obtain ⟨hwf, habove⟩ := h
  cases here with
  | file => simp [Location.step] at hs
  | dir es =>
    simp only [Location.step] at hs
    by_cases h1 : c = "."
    · rw [if_pos h1] at hs
      cases hs
      exact ⟨hwf, habove⟩
    · rw [if_neg h1] at hs
      by_cases h2 : c = ".."
      · rw [if_pos h2] at hs
        cases above with
        | nil =>
          cases hs
          exact ⟨hwf, habove⟩
        | cons parent rest =>
          simp only [Option.some.injEq] at hs
          subst hs
          exact ⟨(habove parent (List.mem_cons_self _ _)).1,
            fun t ht => habove t (List.mem_cons_of_mem _ ht)⟩
      · rw [if_neg h2] at hs
        cases hl : es.lookup c with
        | none => rw [hl] at hs; cases hs
        | some t =>
          rw [hl] at hs
          simp only [Option.some.injEq] at hs
          subst hs
          refine ⟨(FsTree.wfList_mem (FsTree.wf_dir.1 hwf) (lookup_mem hl)).2.2.1, ?_⟩
          intro t1 ht1
          rcases List.mem_cons.1 ht1 with rfl | hmem
          · exact ⟨hwf, rfl⟩
          · exact habove t1 hmem

theorem Location.walk_sound (p : Path) :
    ∀ (loc next : Location), loc.Sound → loc.walk p = some next → next.Sound := by
  induction p with
  | nil =>
    intro loc next h hw
    simp only [Location.walk, Option.some.injEq] at hw
    exact hw ▸ h
  | cons c rest ih =>
    intro loc next h hw
    simp only [Location.walk] at hw
    cases hs : loc.step c with
    | none => rw [hs] at hw; cases hw
    | some mid =>
      rw [hs] at hw
      exact ih mid next (Location.step_sound loc mid c h hs) hw

theorem resolve_eq_some (root : FsTree) (p : Path) (t : FsTree)
    (h : resolve root p = some t) :
    ∃ above, Location.walk ⟨root, []⟩ p = some ⟨t, above⟩ := by
  unfold resolve at h
  cases hw : Location.walk ⟨root, []⟩ p with
  | none => rw [hw] at h; cases h
  | some loc =>
    rw [hw] at h
    simp only [Option.map_some', Option.some.injEq] at h
    obtain ⟨here, above⟩ := loc
    simp only at h
    exact ⟨above, by rw [h]⟩

theorem wf_of_resolve (root : FsTree) (p : Path) (t : FsTree) (hwf : root.wf = true)
    (h : resolve root p = some t) : t.wf = true := by
  obtain ⟨above, hw⟩ := resolve_eq_some root p t h
  exact (Location.walk_sound p _ _ ⟨hwf, fun _ ht => by cases ht⟩ hw).1

theorem resolve_dot (root : FsTree) (dir : Path) (es : List (String × FsTree))
    (h : resolve root dir = some (.dir es)) :
    resolve root (dir ++ ["."]) = some (.dir es) := by
  obtain ⟨above, hw⟩ := resolve_eq_some root dir _ h
  simp [resolve, Location.walk_append, hw, Location.walk_singleton, Location.step]

theorem resolve_dotdot (root : FsTree) (dir : Path) (es : List (String × FsTree))
    (hwf : root.wf = true) (h : resolve root dir = some (.dir es)) :
    ∃ es1, resolve root (dir ++ [".."]) = some (.dir es1) := by
  obtain ⟨above, hw⟩ := resolve_eq_some root dir _ h
  have hsound := Location.walk_sound dir _ _ ⟨hwf, fun _ ht => by cases ht⟩ hw
  cases above with
  | nil =>
    exact ⟨es, by simp [resolve, Location.walk_append, hw, Location.walk_singleton,
      Location.step]⟩
  | cons parent rest =>
    have hp := (hsound.2 parent (List.mem_cons_self _ _)).2
    cases parent with
    | file => cases hp
    | dir es1 =>
      exact ⟨es1, by simp [resolve, Location.walk_append, hw, Location.walk_singleton,
        Location.step]⟩

theorem resolve_child (root : FsTree) (dir : Path) (es : List (String × FsTree))
    (h : resolve root dir = some (.dir es)) (hwf : FsTree.wfList es = true)
    (e : String × FsTree) (he : e ∈ es) : resolve root (dir ++ [e.1]) = some e.2 := by
  obtain ⟨h1, h2, -, h4⟩ := FsTree.wfList_mem hwf he
  obtain ⟨above, hw⟩ := resolve_eq_some root dir _ h
  simp [resolve, Location.walk_append, hw, Location.walk_singleton, Location.step, h1, h2, h4]

theorem isDir_of_resolve (root : FsTree) (p : Path) (t : FsTree) (hp : p ≠ [])
    (h : resolve root p = some t) : QFileInfo.isDir root p = t.isDirectory := by
  simp [QFileInfo.isDir, h, hp]

theorem fileNames_of_resolve (root : FsTree) (dir : Path) (es : List (String × FsTree))
    (h : resolve root dir = some (.dir es)) :
    QDirIterator.fileNames root dir =
      "." :: ".." :: (es.map Prod.fst).filter (fun n => !isHidden n) := by
  simp only [QDirIterator.fileNames, h]

theorem exists_of_resolve (root : FsTree) (dir : Path) (es : List (String × FsTree))
    (h : resolve root dir = some (.dir es)) : QDir.exists root dir = true := by
  simp [QDir.exists, h, FsTree.isDirectory]

theorem traverseDirectory.loop_cons_finished (body : String → Outcome) (name : String)
    (rest : List String) (visits : List Path) (h : body name = ⟨visits, true⟩) :
    traverseDirectory.loop body (name :: rest) =
      ⟨visits ++ (traverseDirectory.loop body rest).visits,
        (traverseDirectory.loop body rest).finished⟩ := by
  rw [traverseDirectory.loop]
  simp only [h, if_true]

/-! ### Non-recursive traversal for files -/

theorem traverseDirectory.loop_files (body : String → Outcome) (dir : Path)
    (pathContext : PathContext) :
    ∀ l : List (String × FsTree),
      (∀ e ∈ l, isHidden e.1 = false → body e.1 =
        ⟨if e.2.isDirectory then [] else [pathContext.convertPath (dir ++ [e.1])], true⟩) →
      traverseDirectory.loop body ((l.map Prod.fst).filter (fun n => !isHidden n)) =
        ⟨(l.filter (fun e => !isHidden e.1 && !e.2.isDirectory)).map
          (fun e => pathContext.convertPath (dir ++ [e.1])), true⟩
  | [], _ => rfl
  | e :: rest, h => by
    have ih := traverseDirectory.loop_files body dir pathContext rest
      (fun d hd => h d (List.mem_cons_of_mem _ hd))
    cases hh : isHidden e.1 with
    | true => simpa [List.filter_cons, hh] using ih
    | false =>
      have hb := h e (List.mem_cons_self _ _) hh
      rw [List.map_cons, List.filter_cons]
      simp only [hh, Bool.not_false, if_true]
      rw [traverseDirectory.loop_cons_finished body _ _ _ hb, ih]
      cases hd : e.2.isDirectory <;> simp [List.filter_cons, hd, hh]

/-- C8, for the entries a `QDirIterator` lists (hidden ones are left out) and for the
path transforms under which every listed entry is a directory exactly when its converted
path is one (the identity among them): a non-recursive traversal for files calls the
visitor exactly once for each entry of the directory that is neither hidden nor a
directory, with its converted path, and for nothing else: no subdirectory, no `.` or
`..` and nothing beneath a subdirectory. -/
theorem traverseDirectory_files_of_preserving (root : FsTree) (fuel : Nat) (dir : Path)
    (es : List (String × FsTree)) (pathContext : PathContext)
    (hwf : root.wf = true) (hdir : dir ≠ []) (hres : resolve root dir = some (.dir es))
    (hctx : ∀ name ∈ QDirIterator.fileNames root dir,
      QFileInfo.isDir root (pathContext.convertPath (dir ++ [name])) =
        QFileInfo.isDir root (dir ++ [name])) :
    traverseDirectory root (fuel + 1) dir false [.FILE] pathContext =
      ⟨(es.filter (fun e => !isHidden e.1 && !e.2.isDirectory)).map
        (fun e => pathContext.convertPath (dir ++ [e.1])), true⟩ := by
  have hwfes : FsTree.wfList es = true := FsTree.wf_dir.1 (wf_of_resolve root _ _ hwf hres)
  have hnames := fileNames_of_resolve root dir es hres
  rw [traverseDirectory_succ root fuel dir false [.FILE] pathContext hdir
    (exists_of_resolve root dir es hres), hnames]
  have hdot : QFileInfo.isDir root (pathContext.convertPath (dir ++ ["."])) = true := by
    rw [hctx "." (by simp [hnames]),
      isDir_of_resolve root _ _ (by simp) (resolve_dot root dir es hres)]
    rfl
  have hdotdot : QFileInfo.isDir root (pathContext.convertPath (dir ++ [".."])) = true := by
    obtain ⟨es1, h1⟩ := resolve_dotdot root dir es hwf hres
    rw [hctx ".." (by simp [hnames]), isDir_of_resolve root _ _ (by simp) h1]
    rfl
  rw [traverseDirectory.loop_cons_finished _ "." _ []
      (by simp [traverseDirectory.body, hdot]),
    traverseDirectory.loop_cons_finished _ ".." _ []
      (by simp [traverseDirectory.body, hdotdot]),
    traverseDirectory.loop_files _ dir pathContext es]
  · rfl
  · intro e he hh
    have hname := FsTree.wfList_mem hwfes he
    have hd : QFileInfo.isDir root (pathContext.convertPath (dir ++ [e.1])) =
        e.2.isDirectory := by
      rw [hctx e.1 (by rw [hnames]
                       simp only [List.mem_cons, List.mem_filter, List.mem_map]
                       exact Or.inr (Or.inr ⟨⟨e, he, rfl⟩, by simp [hh]⟩)),
        isDir_of_resolve root _ _ (by simp) (resolve_child root dir es hres hwfes e he)]
    unfold traverseDirectory.body
    simp only [hd]
    cases hk : e.2.isDirectory
    · simp [EntryTypes.isSet]
    · simp [EntryTypes.isSet, hname.1, hname.2.1]

theorem traverseDirectory_files_of_preserving_witness :
    FsTree.wf (.dir [("a", .dir []), ("b", .dir []), ("f.txt", .file)]) = true ∧
      traverseDirectory (.dir [("a", .dir []), ("b", .dir []), ("f.txt", .file)]) 1 ["."]
        false [.FILE] PathContext.identity = ⟨[[".", "f.txt"]], true⟩ :=
  ⟨by decide,
    traverseDirectory_files_of_preserving
      (.dir [("a", .dir []), ("b", .dir []), ("f.txt", .file)]) 0 ["."]
      [("a", .dir []), ("b", .dir []), ("f.txt", .file)] PathContext.identity
      (by decide) (by decide) rfl (fun _ _ => rfl)⟩

/-- C8 as stated fails in two ways. With the identity transform, the regular file
`.hidden` is an immediate entry of the root that is not a directory, and it is not
visited: the directory iterator leaves hidden entries out. With a transform that turns
paths relative to the directory `base`, the converted paths `a` and `b` name nothing in
the working directory, so the subdirectories `base/a` and `base/b` are not recognised as
directories and are handed to the visitor of a traversal for files. -/
theorem traverseDirectory_files_counterexample :
    ((resolve (.dir [("a", .dir []), (".hidden", .file), ("f.txt", .file)])
          [".", ".hidden"]).isSome = true ∧
        QFileInfo.isDir (.dir [("a", .dir []), (".hidden", .file), ("f.txt", .file)])
          [".", ".hidden"] = false ∧
        traverseDirectory (.dir [("a", .dir []), (".hidden", .file), ("f.txt", .file)])
          1 ["."] false [.FILE] PathContext.identity = ⟨[[".", "f.txt"]], true⟩) ∧
      (QFileInfo.isDir
          (.dir [("base", .dir [("a", .dir []), ("b", .dir []), ("f.txt", .file)])])
          ["base", "a"] = true ∧
        QDir.exists (.dir [("base", .dir [("a", .dir []), ("b", .dir []), ("f.txt", .file)])])
          ["base"] = true ∧
        traverseDirectory
          (.dir [("base", .dir [("a", .dir []), ("b", .dir []), ("f.txt", .file)])])
          1 ["base"] false [.FILE] ⟨fun p => p.drop 1⟩ =
            ⟨[["a"], ["b"], ["f.txt"]], true⟩) := by
  decide

/-! ### Recursive traversal for files and directories -/

theorem traverseDirectory.loop_all (body : String → Outcome) (dir : Path) :
    ∀ l : List (String × FsTree),
      (∀ e ∈ l, isHidden e.1 = false → body e.1 =
        ⟨(([e.1] : Path) :: e.2.descendants.map (fun rel => e.1 :: rel)).map
          (fun rel => dir ++ rel), true⟩) →
      traverseDirectory.loop body ((l.map Prod.fst).filter (fun n => !isHidden n)) =
        ⟨(FsTree.descendantsList l).map (fun rel => dir ++ rel), true⟩
  | [], _ => rfl
  | e :: rest, h => by
    have ih := traverseDirectory.loop_all body dir rest
      (fun d hd => h d (List.mem_cons_of_mem _ hd))
    cases hh : isHidden e.1 with
    | true => simpa [List.filter_cons, hh, FsTree.descendantsList] using ih
    | false =>
      have hb := h e (List.mem_cons_self _ _) hh
      rw [List.map_cons, List.filter_cons]
      simp only [hh, Bool.not_false, if_true]
      rw [traverseDirectory.loop_cons_finished body _ _ _ hb, ih, FsTree.descendantsList]
      simp [hh]

theorem traverseDirectory_all (root : FsTree) (hwf : root.wf = true) :
    ∀ (fuel : Nat) (dir : Path) (es : List (String × FsTree)), dir ≠ [] →
      resolve root dir = some (.dir es) → (FsTree.dir es).height ≤ fuel →
      traverseDirectory root fuel dir true [.FILE, .DIR] PathContext.identity =
        ⟨(FsTree.descendantsList es).map (fun rel => dir ++ rel), true⟩
  | 0, _, es, _, _, hfuel => by
    rw [FsTree.height] at hfuel
    omega
  | fuel + 1, dir, es, hdir, hres, hfuel => by
    have hwfes : FsTree.wfList es = true := FsTree.wf_dir.1 (wf_of_resolve root _ _ hwf hres)
    rw [traverseDirectory_succ root fuel dir true _ _ hdir
      (exists_of_resolve root dir es hres), fileNames_of_resolve root dir es hres]
    have hdot : QFileInfo.isDir root (dir ++ ["."]) = true := by
      rw [isDir_of_resolve root _ _ (by simp) (resolve_dot root dir es hres)]
      rfl
    have hdotdot : QFileInfo.isDir root (dir ++ [".."]) = true := by
      obtain ⟨es1, h1⟩ := resolve_dotdot root dir es hwf hres
      rw [isDir_of_resolve root _ _ (by simp) h1]
      rfl
    rw [traverseDirectory.loop_cons_finished _ "." _ []
        (by simp [traverseDirectory.body, PathContext.identity, hdot]),
      traverseDirectory.loop_cons_finished _ ".." _ []
        (by simp [traverseDirectory.body, PathContext.identity, hdotdot]),
      traverseDirectory.loop_all _ dir es]
    · rfl
    · intro e he _
      have hname := FsTree.wfList_mem hwfes he
      have hchild := resolve_child root dir es hres hwfes e he
      have hd := isDir_of_resolve root _ _ (by simp) hchild
      unfold traverseDirectory.body
      simp only [PathContext.identity, hd]
      obtain ⟨name, child⟩ := e
      cases child with
      | file =>
        simp [FsTree.isDirectory, EntryTypes.isSet, FsTree.descendants]
      | dir es1 =>
        have hheight : (FsTree.dir es1).height ≤ fuel := by
          have := FsTree.heightList_mem he
          rw [FsTree.height] at hfuel
          simp only at this
          omega
        have ih := traverseDirectory_all root hwf fuel (dir ++ [name]) es1 (by simp) hchild
          hheight
        have ih1 : traverseDirectory root fuel (dir ++ [name]) true [.FILE, .DIR]
            ⟨fun p => p⟩ = ⟨(FsTree.descendantsList es1).map
              (fun rel => dir ++ [name] ++ rel), true⟩ := ih
        simp only at hname
        simp [FsTree.isDirectory, EntryTypes.isSet, FsTree.descendants, hname.1, hname.2.1, ih1,
          Function.comp_def]

theorem FsTree.mem_descendantsList (rel : Path) :
    ∀ es : List (String × FsTree), rel ∈ FsTree.descendantsList es ↔
      ∃ e ∈ es, isHidden e.1 = false ∧
        (rel = [e.1] ∨ ∃ r ∈ e.2.descendants, rel = e.1 :: r)
  | [] => by simp [FsTree.descendantsList]
  | e :: rest => by
    rw [FsTree.descendantsList, List.mem_append, FsTree.mem_descendantsList rel rest]
    simp only [List.mem_cons, exists_eq_or_imp]
    cases hh : isHidden e.1 with
    | true => simp
    | false =>
      simp only [Bool.false_eq_true, if_false, List.mem_cons, List.mem_map, true_and]
      constructor
      · rintro ((h | ⟨r, hr, rfl⟩) | h)
        · exact Or.inl (Or.inl h)
        · exact Or.inl (Or.inr ⟨r, hr, rfl⟩)
        · exact Or.inr h
      · rintro ((h | ⟨r, hr, rfl⟩) | h)
        · exact Or.inl (Or.inl h)
        · exact Or.inl (Or.inr ⟨r, hr, rfl⟩)
        · exact Or.inr h

theorem FsTree.descendants_dir (es : List (String × FsTree)) :
    (FsTree.dir es).descendants = FsTree.descendantsList es := by
  rw [FsTree.descendants]

theorem FsTree.descendants_file : FsTree.file.descendants = [] := by
  rw [FsTree.descendants]

/-- In a well-formed tree the descendants are the non-empty paths without a hidden name
that lead somewhere. -/
theorem FsTree.mem_descendants_iff (rel : Path) :
    ∀ t : FsTree, t.wf = true →
      (rel ∈ t.descendants ↔
        rel ≠ [] ∧ (t.walk rel).isSome = true ∧ ∀ c ∈ rel, isHidden c = false) := by
  induction rel with
  | nil =>
    intro t _
    cases t with
    | file => simp [FsTree.descendants_file]
    | dir es => simp [FsTree.descendants_dir, FsTree.mem_descendantsList]
  | cons c rest ih =>
    intro t hwf
    cases t with
    | file => simp [FsTree.descendants_file, FsTree.walk_file_cons]
    | dir es =>
      have hwfes := FsTree.wf_dir.1 hwf
      rw [FsTree.descendants_dir, FsTree.mem_descendantsList, FsTree.walk_dir_cons]
      constructor
      · rintro ⟨e, he, hh, h⟩
        obtain ⟨-, -, hwfe, hlook⟩ := FsTree.wfList_mem hwfes he
        refine ⟨List.cons_ne_nil _ _, ?_⟩
        rcases h with h | ⟨r, hr, h⟩
        · injection h with h1 h2
          subst h1 h2
          rw [hlook]
          exact ⟨by simp [FsTree.walk_nil], by simpa using hh⟩
        · injection h with h1 h2
          subst h1 h2
          rw [hlook]
          obtain ⟨-, i2, i3⟩ := (ih e.2 hwfe).1 hr
          refine ⟨i2, ?_⟩
          intro d hd
          rcases List.mem_cons.1 hd with rfl | hmem
          · exact hh
          · exact i3 d hmem
      · rintro ⟨-, h, hall⟩
        cases hl : es.lookup c with
        | none => rw [hl] at h; cases h
        | some t1 =>
          rw [hl] at h
          have hmem := lookup_mem hl
          refine ⟨(c, t1), hmem, hall c (List.mem_cons_self _ _), ?_⟩
          by_cases hrest : rest = []
          · exact Or.inl (by rw [hrest])
          · exact Or.inr ⟨rest, (ih t1 (FsTree.wfList_mem hwfes hmem).2.2.1).2
              ⟨hrest, h, fun d hd => hall d (List.mem_cons_of_mem _ hd)⟩, rfl⟩

theorem FsTree.descendantsList_head (rel : Path) (es : List (String × FsTree))
    (h : rel ∈ FsTree.descendantsList es) : ∃ c r, rel = c :: r ∧ c ∈ es.map Prod.fst := by
  obtain ⟨e, he, -, h | ⟨r, -, h⟩⟩ := (FsTree.mem_descendantsList rel es).1 h
  · exact ⟨e.1, [], h, List.mem_map_of_mem _ he⟩
  · exact ⟨e.1, r, h, List.mem_map_of_mem _ he⟩

theorem FsTree.nodup_descendants :
    ∀ (n : Nat) (t : FsTree), t.height ≤ n → t.wf = true → t.descendants.Nodup := by
  intro n
  induction n with
  | zero =>
    intro t hh _
    cases t with
    | file => simp [FsTree.descendants_file]
    | dir es => rw [FsTree.height] at hh; omega
  | succ n ih =>
    intro t hh hwf
    cases t with
    | file => simp [FsTree.descendants_file]
    | dir es =>
      rw [FsTree.descendants_dir]
      rw [FsTree.height] at hh
      have hall : ∀ e ∈ es, e.2.height ≤ n := fun e he =>
        le_trans (FsTree.heightList_mem he) (by omega)
      have hwfes := FsTree.wf_dir.1 hwf
      clear hh hwf
      induction es with
      | nil => simp [FsTree.descendantsList]
      | cons e rest ihl =>
        obtain ⟨-, hnot, hwfe, hwfrest⟩ := (FsTree.wfList_cons e rest).1 hwfes
        have hrest := ihl (fun d hd => hall d (List.mem_cons_of_mem _ hd)) hwfrest
        have hchild := ih e.2 (hall e (List.mem_cons_self _ _)) hwfe
        rw [FsTree.descendantsList]
        cases hh : isHidden e.1 with
        | true => simpa using hrest
        | false =>
          simp only [Bool.false_eq_true, if_false]
          refine List.Nodup.append ?_ hrest ?_
          · refine List.nodup_cons.2 ⟨?_, ?_⟩
            · simp only [List.mem_map, not_exists, not_and]
              intro r hr heq
              injection heq with _ h2
              subst h2
              cases hk : e.2 with
              | file => rw [hk, FsTree.descendants_file] at hr; cases hr
              | dir es1 =>
                rw [hk, FsTree.descendants_dir] at hr
                obtain ⟨c, r, h, -⟩ := FsTree.descendantsList_head _ _ hr
                cases h
            · exact hchild.map (fun a b hab => by injection hab)
          · intro rel h1 h2
            obtain ⟨c, r, hrel, hc⟩ := FsTree.descendantsList_head rel rest h2
            subst hrel
            have : c = e.1 := by
              rcases List.mem_cons.1 h1 with h | h
              · injection h
              · obtain ⟨r1, -, h⟩ := List.mem_map.1 h
                injection h with h _
                exact h.symm
            exact hnot (this ▸ hc)

theorem FsTree.walk_names (rel : Path) :
    ∀ (t t1 : FsTree), t.wf = true → t.walk rel = some t1 → ∀ c ∈ rel, c ≠ "." ∧ c ≠ ".." := by
  induction rel with
  | nil => intro _ _ _ _ c hc; cases hc
  | cons d rest ih =>
    intro t t1 hwf h c hc
    cases t with
    | file => cases h
    | dir es =>
      rw [FsTree.walk_dir_cons] at h
      cases hl : es.lookup d with
      | none => rw [hl] at h; cases h
      | some t2 =>
        rw [hl] at h
        obtain ⟨h1, h2, hwf2, -⟩ := FsTree.wfList_mem (FsTree.wf_dir.1 hwf) (lookup_mem hl)
        rcases List.mem_cons.1 hc with rfl | hmem
        · exact ⟨h1, h2⟩
        · exact ih t2 t1 hwf2 h c hmem

/-- C9, for what a `QDirIterator` lists (hidden entries are left out and hidden
directories are not entered): on a finite, well-formed directory tree, with the identity
path transform, the recursive traversal for files and directories returns (once the
allowed depth reaches the height of the tree under the root) and calls the visitor
exactly once for every file and every directory strictly beneath the root, at any depth,
whose path from the root has no hidden name: the visits have no repetition and are the
root path extended by the non-empty paths without a hidden name that lead somewhere. The
root itself and the pseudo-entries `.` and `..` are never visited. -/
theorem traverseDirectory_recursive_visits_all (root : FsTree) (fuel : Nat) (dir : Path)
    (es : List (String × FsTree)) (hwf : root.wf = true) (hdir : dir ≠ [])
    (hres : resolve root dir = some (.dir es)) (hfuel : (FsTree.dir es).height ≤ fuel) :
    (traverseDirectory root fuel dir true [.FILE, .DIR] PathContext.identity).finished = true ∧
      (traverseDirectory root fuel dir true [.FILE, .DIR] PathContext.identity).visits.Nodup ∧
      (∀ q, q ∈ (traverseDirectory root fuel dir true [.FILE, .DIR]
            PathContext.identity).visits ↔
          ∃ rel, rel ≠ [] ∧ q = dir ++ rel ∧ ((FsTree.dir es).walk rel).isSome = true ∧
            ∀ c ∈ rel, isHidden c = false) ∧
      (∀ q ∈ (traverseDirectory root fuel dir true [.FILE, .DIR]
            PathContext.identity).visits,
          q ≠ dir ∧ q.getLast? ≠ some "." ∧ q.getLast? ≠ some "..") := by
  have hwfd : (FsTree.dir es).wf = true := wf_of_resolve root _ _ hwf hres
  have hmem : ∀ q, q ∈ (FsTree.descendantsList es).map (fun rel => dir ++ rel) ↔
      ∃ rel, rel ≠ [] ∧ q = dir ++ rel ∧ ((FsTree.dir es).walk rel).isSome = true ∧
        ∀ c ∈ rel, isHidden c = false := by
    intro q
    rw [List.mem_map]
    constructor
    · rintro ⟨rel, hrel, rfl⟩
      rw [← FsTree.descendants_dir] at hrel
      obtain ⟨h1, h2, h3⟩ := (FsTree.mem_descendants_iff rel _ hwfd).1 hrel
      exact ⟨rel, h1, rfl, h2, h3⟩
    · rintro ⟨rel, h1, rfl, h2, h3⟩
      refine ⟨rel, ?_, rfl⟩
      rw [← FsTree.descendants_dir]
      exact (FsTree.mem_descendants_iff rel _ hwfd).2 ⟨h1, h2, h3⟩
  rw [traverseDirectory_all root hwf fuel dir es hdir hres hfuel]
  refine ⟨rfl, ?_, hmem, ?_⟩
  · have hnd := FsTree.nodup_descendants _ _ (le_refl _) hwfd
    rw [FsTree.descendants_dir] at hnd
    exact hnd.map (fun a b hab => List.append_cancel_left hab)
  · intro q hq
    obtain ⟨rel, h1, rfl, h2, -⟩ := (hmem q).1 hq
    refine ⟨fun h => h1 (by simpa using h), ?_⟩
    rcases List.eq_nil_or_concat rel with hnil | ⟨r, c, hrc⟩
    · exact absurd hnil h1
    · subst hrc
      cases hw : (FsTree.dir es).walk (r.concat c) with
      | none => rw [hw] at h2; cases h2
      | some t1 =>
        have hc := FsTree.walk_names _ _ t1 hwfd hw c (by simp)
        have hlast : (dir ++ r.concat c).getLast? = some c := by
          rw [List.concat_eq_append, ← List.append_assoc, List.getLast?_append]
          simp
        rw [hlast]
        exact ⟨fun h => hc.1 (Option.some.inj h), fun h => hc.2 (Option.some.inj h)⟩

theorem traverseDirectory_recursive_visits_all_witness :
    FsTree.wf (.dir [("a", .dir [("x", .file), ("y", .dir [])]), ("f.txt", .file)]) = true ∧
      (traverseDirectory (.dir [("a", .dir [("x", .file), ("y", .dir [])]), ("f.txt", .file)])
          3 ["."] true [.FILE, .DIR] PathContext.identity).finished = true ∧
      (traverseDirectory (.dir [("a", .dir [("x", .file), ("y", .dir [])]), ("f.txt", .file)])
          3 ["."] true [.FILE, .DIR] PathContext.identity).visits =
        [[".", "a"], [".", "a", "x"], [".", "a", "y"], [".", "f.txt"]] :=
  ⟨by decide,
    (traverseDirectory_recursive_visits_all
      (.dir [("a", .dir [("x", .file), ("y", .dir [])]), ("f.txt", .file)]) 3 ["."]
      [("a", .dir [("x", .file), ("y", .dir [])]), ("f.txt", .file)]
      (by decide) (by decide) rfl (by decide)).1,
    by decide⟩

/-- C9 as stated, on a root that holds the hidden directory `.git` with a file `config`
in it, the hidden file `.hidden` and the file `f.txt`: the recursive traversal for files
and directories visits `f.txt` alone. The directory `.git`, the file beneath it and the
file `.hidden` exist strictly beneath the root and are not visited: the directory
iterator leaves hidden entries out. -/
theorem traverseDirectory_recursive_skips_hidden :
    (resolve (.dir [(".git", .dir [("config", .file)]), (".hidden", .file), ("f.txt", .file)])
        [".", ".git"]).isSome = true ∧
      (resolve (.dir [(".git", .dir [("config", .file)]), (".hidden", .file), ("f.txt", .file)])
        [".", ".git", "config"]).isSome = true ∧
      (resolve (.dir [(".git", .dir [("config", .file)]), (".hidden", .file), ("f.txt", .file)])
        [".", ".hidden"]).isSome = true ∧
      traverseDirectory
        (.dir [(".git", .dir [("config", .file)]), (".hidden", .file), ("f.txt", .file)])
        3 ["."] true [.FILE, .DIR] PathContext.identity = ⟨[[".", "f.txt"]], true⟩ := by
  decide

end DoomRunner
